import Mathlib

/-!
# BASELiquidity: balance poller (`main.go`)

A shallow embedding of the program's balance sweep, its threshold decision, the
address-file reader and the outer cycle, together with the library operations the
program relies on (`math/big.Float`, `bufio.Scanner`, `strings.TrimSpace`), which
are modelled from their documented behaviour.

The source refers to `balanceWBNB` (line 122) and `settings.BSCRPCURL` (line 150),
names that are not declared anywhere; the embedding reads them as the declared
`balanceWETH` and `settings.BASERPCURL`.
-/

namespace big

/-- Largest exponent of a `big.Float` (`math.MaxInt32`). -/
def MaxExp : Int := 2147483647

/-- Smallest exponent of a `big.Float` (`math.MinInt32`). -/
def MinExp : Int := -2147483648

/-- The `form` field of a `big.Float`. -/
inductive Form where
  | zero
  | finite
  | inf
deriving DecidableEq, Repr

/-- Bit counting by repeated halving; `fuel` bounds the number of halvings. -/
def bitLenAux : Nat → Nat → Nat
  | 0, _ => 0
  | fuel + 1, n => if n = 0 then 0 else bitLenAux fuel (n / 2) + 1

/-- Number of bits of `n` (`nat.bitLen`): `0` for `0`, else the position of the top bit plus one. -/
def bitLen (n : Nat) : Nat := bitLenAux n n

/-- A non-negative `big.Float`. The mantissa word array is kept as the natural number
`mant`; a finite value is `0.mant * 2^exp`, that is `mant * 2^(exp - bitLen mant)`,
with the top bit of `mant` set as in the library (`0.5 <= 0.mant < 1`). -/
structure Float where
  prec : Nat
  form : Form
  mant : Nat
  exp : Int
deriving DecidableEq, Repr

/-- `Float.round(sbit)` in mode `ToNearestEven`, for a finite value with mantissa bits `m`
and exponent `exp`: keeps the `prec` leading bits, increments them when the rounding
bit is set and either the sticky bit is set or the kept mantissa is odd, and bumps
the exponent when the increment overflows the mantissa. -/
def Float.round (prec : Nat) (m : Nat) (exp : Int) (sbit : Bool) : Float :=
  let bits := bitLen m
  if bits ≤ prec then ⟨prec, Form.finite, m, exp⟩
  else
    let r := bits - prec - 1
    let rbit := decide ((m / 2 ^ r) % 2 = 1)
    let sbit := sbit || decide (m % 2 ^ r ≠ 0)
    let q := m / 2 ^ (r + 1)
    let inc := rbit && (sbit || decide (q % 2 = 1))
    if inc then
      if q + 1 = 2 ^ prec then
        if MaxExp ≤ exp then ⟨prec, Form.inf, 0, 0⟩
        else ⟨prec, Form.finite, 2 ^ (prec - 1), exp + 1⟩
      else ⟨prec, Form.finite, q + 1, exp⟩
    else ⟨prec, Form.finite, q, exp⟩

/-- `Float.setExpAndRound(exp, sbit)`: underflow to zero below `MinExp`, overflow to
infinity above `MaxExp`, otherwise set the exponent and round. -/
def setExpAndRound (prec : Nat) (m : Nat) (exp : Int) (sbit : Bool) : Float :=
  if exp < MinExp then ⟨prec, Form.zero, 0, 0⟩
  else if MaxExp < exp then ⟨prec, Form.inf, 0, 0⟩
  else Float.round prec m exp sbit

/-- `new(big.Float).SetInt(x)` for `x >= 0`: the receiver has precision 0, so the
precision becomes `max(x.BitLen(), 64)`. -/
def SetInt (x : Nat) : Float :=
  let bits := bitLen x
  let prec := max bits 64
  if x = 0 then ⟨prec, Form.zero, 0, 0⟩
  else setExpAndRound prec x (bits : Int) false

/-- A positive `float64` constant `num/den` as the compiler converts it (IEEE 754
round to nearest even, 53-bit mantissa; both constants of the program are normal
numbers), passed to `big.NewFloat`, which yields precision 53. The quotient is
computed with enough extra bits for the rounding bit, the remainder is the sticky bit. -/
def NewFloat (num den : Nat) : Float :=
  if num = 0 ∨ den = 0 then ⟨53, Form.zero, 0, 0⟩
  else
    let s := 53 + 1 + bitLen den - bitLen num
    let q := num * 2 ^ s / den
    let sbit := decide (num * 2 ^ s % den ≠ 0)
    setExpAndRound 53 q ((bitLen q : Int) - (s : Int)) sbit

/-- `Float.uquo`: quotient of two finite positive values. The dividend mantissa is
extended so that the integer quotient holds at least `prec + 1` bits (the library
extends by whole words), the remainder gives the sticky bit. -/
def uquo (prec : Nat) (x y : Float) : Float :=
  let s := prec + 1 + bitLen y.mant - bitLen x.mant
  let q := x.mant * 2 ^ s / y.mant
  let sbit := decide (x.mant * 2 ^ s % y.mant ≠ 0)
  let e := (x.exp - (bitLen x.mant : Int)) - (y.exp - (bitLen y.mant : Int)) - (s : Int)
  setExpAndRound prec q (e + (bitLen q : Int)) sbit

/-- `new(big.Float).Quo(x, y)` for non-negative operands: the receiver has precision 0,
so the result precision is `max(x.prec, y.prec)`. `0/0` and `Inf/Inf` panic in the
library (`none`). -/
def Quo (x y : Float) : Option Float :=
  let prec := max x.prec y.prec
  match x.form, y.form with
  | Form.finite, Form.finite => some (uquo prec x y)
  | Form.zero, Form.zero => none
  | Form.inf, Form.inf => none
  | Form.zero, _ => some ⟨prec, Form.zero, 0, 0⟩
  | _, Form.inf => some ⟨prec, Form.zero, 0, 0⟩
  | _, _ => some ⟨prec, Form.inf, 0, 0⟩

/-- `Float.ord` for non-negative values: 0 for zero, 1 for finite, 2 for +Inf. -/
def ord (x : Float) : Int :=
  match x.form with
  | Form.zero => 0
  | Form.finite => 1
  | Form.inf => 2

/-- `Float.ucmp`: compare exponents, then the mantissas aligned at their top bit. -/
def ucmp (x y : Float) : Int :=
  if x.exp < y.exp then -1
  else if y.exp < x.exp then 1
  else
    let xm := x.mant * 2 ^ bitLen y.mant
    let ym := y.mant * 2 ^ bitLen x.mant
    if xm < ym then -1 else if ym < xm then 1 else 0

/-- `Float.Cmp` for non-negative values. -/
def Cmp (x y : Float) : Int :=
  if ord x < ord y then -1
  else if ord y < ord x then 1
  else if ord x = 1 then ucmp x y
  else 0

/-- The exact value of a non-negative `big.Float` as a rational number (0 for the
zero form; the infinite form has no value and is mapped to 0). -/
def toRat (x : Float) : ℚ :=
  match x.form with
  | Form.finite => (x.mant : ℚ) * (2 : ℚ) ^ (x.exp - (bitLen x.mant : Int))
  | _ => 0

/-- `Rounds p V R`: `R` is a round-to-nearest of the positive real `V` to `p` mantissa
bits: `R = M * 2^k` with `M` holding at least `p` bits, `2^k` the unit in the last
place at `V` and `R` within half a unit of `V`. -/
def Rounds (p : Nat) (V R : ℚ) : Prop :=
  ∃ (k : Int) (M : Nat), R = (M : ℚ) * (2 : ℚ) ^ k ∧ 2 ^ (p - 1) ≤ M ∧
    ((2 : ℚ) ^ (p - 1)) * (2 : ℚ) ^ k ≤ V ∧ |V - R| ≤ (2 : ℚ) ^ k / 2

/-- A multi-precision decimal `0.mant * 10^exp` (`math/big`, type `decimal`): `mant` holds
ASCII digits, most significant first, without trailing zeros. -/
structure decimal where
  mant : List Char
  exp : Int
deriving DecidableEq, Repr

/-- The library's `trim`: remove trailing zeros; an empty mantissa gets exponent 0. -/
def trim (x : decimal) : decimal :=
  let m := (x.mant.reverse.dropWhile (fun c => c == '0')).reverse
  if m = [] then ⟨[], 0⟩ else ⟨m, x.exp⟩

/-- `decimal.init(m, shift)`: the exact decimal expansion of `m * 2^shift`. A negative
shift is a division by a power of two, whose exact decimal is `m * 5^(-shift)` with the
decimal point moved `-shift` places. -/
def decimal.init (m : Nat) (shift : Int) : decimal :=
  if m = 0 then ⟨[], 0⟩
  else
    let n := if 0 ≤ shift then m * 2 ^ shift.toNat else m * 5 ^ (-shift).toNat
    let s := Nat.toDigits 10 n
    let e : Int := if 0 ≤ shift then 0 else shift
    ⟨(trim ⟨s, 0⟩).mant, (s.length : Int) + e⟩

/-- `shouldRoundUp(x, n)`: half-way cases round to even, otherwise the digit decides. -/
def shouldRoundUp (x : decimal) (n : Nat) : Bool :=
  if x.mant.getD n '0' == '5' && n + 1 == x.mant.length then
    decide (0 < n) && decide ((x.mant.getD (n - 1) '0').toNat % 2 = 1)
  else decide ('5' ≤ x.mant.getD n '0')

/-- `decimal.roundUp(n)` for `n < len(x.mant)`: drop the nines that end the kept digits
and increment the digit before them; all nines become `1` with the exponent bumped. -/
def decimal.roundUp (x : decimal) (n : Nat) : decimal :=
  match ((x.mant.take n).reverse.dropWhile (fun c => decide ('9' ≤ c))) with
  | [] => ⟨['1'], x.exp + 1⟩
  | c :: cs => ⟨(Char.ofNat (c.toNat + 1) :: cs).reverse, x.exp⟩

/-- `decimal.roundDown(n)` for `n < len(x.mant)`: cut and trim. -/
def decimal.roundDown (x : decimal) (n : Nat) : decimal :=
  trim ⟨x.mant.take n, x.exp⟩

/-- `decimal.round(n)` for `n >= 0`: nothing to do when `n >= len(x.mant)`. -/
def decimal.round (x : decimal) (n : Nat) : decimal :=
  if x.mant.length ≤ n then x
  else if shouldRoundUp x n then x.roundUp n else x.roundDown n

/-- `decimal.at(i)`: the digit at index `i`, `'0'` outside the mantissa. -/
def decimal.digitAt (d : decimal) (i : Int) : Char :=
  if 0 ≤ i ∧ i < (d.mant.length : Int) then d.mant.getD i.toNat '0' else '0'

/-- `fmtF`: the form `ddddddd.ddddd` with `prec` digits after the point. -/
def fmtF (prec : Nat) (d : decimal) : List Char :=
  let int :=
    if 0 < d.exp then
      let m := min d.mant.length d.exp.toNat
      d.mant.take m ++ List.replicate (d.exp.toNat - m) '0'
    else ['0']
  let frac :=
    if 0 < prec then
      '.' :: (List.range prec).map (fun (i : Nat) => d.digitAt (d.exp + (i : Int)))
    else []
  int ++ frac

/-- `fmtE`: the form `d.ddddde±dd` with `prec` digits after the point. -/
def fmtE (prec : Int) (d : decimal) : List Char :=
  let first : Char := d.mant.headD '0'
  let more :=
    if 0 < prec then
      let m := min d.mant.length (prec.toNat + 1)
      '.' :: ((d.mant.take m).drop 1 ++ List.replicate (prec.toNat + 1 - max m 1) '0')
    else []
  let exp : Int := if d.mant = [] then 0 else d.exp - 1
  let sign : Char := if exp < 0 then '-' else '+'
  let digits := Nat.toDigits 10 exp.natAbs
  let pad := if exp.natAbs < 10 then ['0'] else []
  first :: more ++ ('e' :: sign :: pad ++ digits)

/-- `x.Text('g', prec)` for a non-negative `x` and `prec > 0`: the value rounded to `prec`
significant decimal digits, shown in `%e` form when the decimal exponent is below -4 or at
least the precision and in `%f` form otherwise, without trailing zeros. -/
def Float.Text (x : Float) (prec : Nat) : String :=
  match x.form with
  | Form.inf => "+Inf"
  | _ =>
    let d0 : decimal :=
      if x.form = Form.finite then decimal.init x.mant (x.exp - (bitLen x.mant : Int))
      else ⟨[], 0⟩
    let d := d0.round prec
    let eprec : Int :=
      if d.mant.length < prec ∧ d.exp ≤ (d.mant.length : Int) then (d.mant.length : Int)
      else (prec : Int)
    let exp := d.exp - 1
    if exp < -4 ∨ eprec ≤ exp then
      String.mk (fmtE ((min prec d.mant.length : Nat) - 1 : Int) d)
    else
      let p : Int := if d.exp < (prec : Int) then (d.mant.length : Int) else (prec : Int)
      String.mk (fmtF (p - d.exp).toNat d)

end big

/-! ## The program: constants, events, the sweep, the address file, the outer cycle -/

namespace Main

/-- `checkInterval = 12 * time.Hour`, in seconds. -/
def checkInterval : Nat := 12 * 3600

/-- `thresholdWETH = 0.002`, as the fraction the constant denotes. -/
def thresholdWETH : Nat × Nat := (2, 1000)

/-- `delayBetweenChecks = 1 * time.Second`, in seconds. -/
def delayBetweenChecks : Nat := 1

/-- The configuration read from `settings.json`. -/
structure Settings where
  BASERPCURL : String
  TelegramBotToken : String
  TelegramChatID : Int
  WETHContractAddress : String
  AddressesFile : String
deriving DecidableEq, Repr

/-- How the chain read of one loop iteration ends: `parsedABI.Pack` fails,
`client.CallContract` fails, `parsedABI.UnpackIntoInterface` fails, or a raw balance is
decoded. -/
inductive CallOutcome where
  | packError
  | callError
  | unpackError
  | balance (B : Nat)
deriving DecidableEq, Repr

/-- How the HTTP request of `sendTelegramMessage` ends: `err != nil`, or a response with
a status code. -/
inductive SendOutcome where
  | networkError
  | status (code : Nat)
deriving DecidableEq, Repr

/-- The observable actions of the program: log lines, contract calls, HTTP requests,
sleeps, file and connection operations, and the ways the process ends abnormally. -/
inductive Event where
  | logChecking (i n : Nat) (addr : String)
  | logPackFailed (addr : String)
  | callContract (contractAddress : String) (addr : String)
  | logCallFailed (addr : String)
  | logRaw (addr : String)
  | logUnpackFailed (addr : String)
  | logBalance (addr : String) (amount : String)
  | telegramGet (botToken : String) (chatID : Int) (text : String)
  | logSendError
  | logSendStatus (code : Nat)
  | logSendOk
  | sleep (seconds : Nat)
  | readFile (name : String)
  | unmarshal
  | openFile (name : String)
  | dial (url : String)
  | logWaiting
  | fatal (message : String)
  | panic
deriving DecidableEq, Repr

/-- The result of running a piece of the program: what it did, and whether the process
ended in it (`log.Fatalf` or a panic) instead of returning. -/
structure Run where
  events : List Event
  exited : Bool
deriving DecidableEq, Repr

/-- `sendTelegramMessage(botToken, chatID, message)`: one GET request to the bot API; the
three ways it can end are logged and nothing is returned. -/
def sendTelegramMessage (resp : SendOutcome) (botToken : String) (chatID : Int)
    (message : String) : List Event :=
  Event.telegramGet botToken chatID message ::
    (match resp with
     | SendOutcome.networkError => [Event.logSendError]
     | SendOutcome.status code =>
       if code ≠ 200 then [Event.logSendStatus code] else [Event.logSendOk])

/-- The text of an alert: `fmt.Sprintf("Alamat: %s, Saldo WETH: %s WETH", addr, amount)`. -/
def alertMessage (addr : String) (amount : String) : String :=
  "Alamat: " ++ addr ++ ", Saldo WETH: " ++ amount ++ " WETH"

/-- The amount computed at lines 119-120:
`new(big.Float).Quo(new(big.Float).SetInt(balance), big.NewFloat(1e18))`. -/
def balanceWETH (balance : Nat) : Option big.Float :=
  big.Quo (big.SetInt balance) (big.NewFloat 1000000000000000000 1)

/-- The test of line 124: `balanceWETH.Cmp(big.NewFloat(thresholdWETH)) > 0`. -/
def exceedsThreshold (amount : big.Float) : Bool :=
  decide (0 < big.Cmp amount (big.NewFloat thresholdWETH.1 thresholdWETH.2))

/-- The body of the loop of `checkBalances` for the address `addr` at index `i` of `n`
addresses, given how the chain read and the HTTP request (if made) end. A failure at the
pack, call or unpack step logs and continues with the next address; the delay at the end
of the body is reached only when none of them failed. -/
def checkAddress (call : CallOutcome) (resp : SendOutcome) (contractAddress : String)
    (settings : Settings) (i n : Nat) (addr : String) : Run :=
  let start := Event.logChecking (i + 1) n addr
  match call with
  | CallOutcome.packError => ⟨[start, Event.logPackFailed addr], false⟩
  | CallOutcome.callError =>
    ⟨[start, Event.callContract contractAddress addr, Event.logCallFailed addr], false⟩
  | CallOutcome.unpackError =>
    ⟨[start, Event.callContract contractAddress addr, Event.logRaw addr,
      Event.logUnpackFailed addr], false⟩
  | CallOutcome.balance balance =>
    let pre := [start, Event.callContract contractAddress addr, Event.logRaw addr]
    match balanceWETH balance with
    | none => ⟨pre ++ [Event.panic], true⟩
    | some amount =>
      let notify :=
        if exceedsThreshold amount then
          sendTelegramMessage resp settings.TelegramBotToken settings.TelegramChatID
            (alertMessage addr (amount.Text 10))
        else []
      ⟨pre ++ [Event.logBalance addr (amount.Text 10)] ++ notify
        ++ [Event.sleep delayBetweenChecks], false⟩

/-- The loop `for i, addr := range addresses` of `checkBalances`, from index `i` on; `n` is
`len(addresses)`. The chain reader and the notifier are given per loop index. -/
def sweepFrom (reader : Nat → String → CallOutcome) (notifier : Nat → String → SendOutcome)
    (contractAddress : String) (settings : Settings) (n : Nat) : Nat → List String → Run
  | _, [] => ⟨[], false⟩
  | i, addr :: rest =>
    let r := checkAddress (reader i addr) (notifier i addr) contractAddress settings i n addr
    if r.exited then r
    else
      let r2 := sweepFrom reader notifier contractAddress settings n (i + 1) rest
      ⟨r.events ++ r2.events, r2.exited⟩

/-- `checkBalances(client, contractAddress, addresses, settings)`. The ABI text `wbnbABI`
is a constant that parses, so the `log.Fatalf` of line 84 is not reached. -/
def checkBalances (reader : Nat → String → CallOutcome) (notifier : Nat → String → SendOutcome)
    (contractAddress : String) (addresses : List String) (settings : Settings) : Run :=
  sweepFrom reader notifier contractAddress settings addresses.length 0 addresses

/-- `bufio.MaxScanTokenSize`, the size limit of the buffer of a `bufio.Scanner`. -/
def MaxScanTokenSize : Nat := 64 * 1024

/-- `utf8.RuneLen`: the number of bytes of a code point in UTF-8. -/
def RuneLen (c : Char) : Nat :=
  if c.toNat < 0x80 then 1 else if c.toNat < 0x800 then 2 else if c.toNat < 0x10000 then 3 else 4

/-- The number of bytes of a text in UTF-8. -/
def byteLen (s : List Char) : Nat := (s.map RuneLen).sum

/-- `unicode.IsSpace`. -/
def IsSpace (c : Char) : Bool :=
  let n := c.toNat
  (0x09 ≤ n && n ≤ 0x0D) || n == 0x20 || n == 0x85 || n == 0xA0 || n == 0x1680 ||
    (0x2000 ≤ n && n ≤ 0x200A) || n == 0x2028 || n == 0x2029 || n == 0x202F ||
    n == 0x205F || n == 0x3000

/-- `strings.TrimSpace`: the text without its leading and trailing white space. -/
def TrimSpace (s : List Char) : List Char :=
  ((s.dropWhile IsSpace).reverse.dropWhile IsSpace).reverse

/-- The library's `dropCR`: drop one terminal carriage return. -/
def dropCR (s : List Char) : List Char :=
  if s.getLast? = some '\r' then s.dropLast else s

/-- The errors `readAddressesFromFile` can return: the one of `os.Open`, and
`bufio.ErrTooLong` of the scanner. -/
inductive FileError where
  | openError
  | tooLong
deriving DecidableEq, Repr

/-- What one call of `scanner.Scan()` does with the unread input (split function
`ScanLines`): at the end of the input there is no token; a line, with or without its final
newline, is a token when it fits the buffer; a line of `MaxScanTokenSize` bytes or more
before its newline stops the scanner with `ErrTooLong`. -/
inductive ScanResult where
  | eof
  | tooLong
  | token (text : List Char) (rest : List Char)
deriving DecidableEq, Repr

/-- One call of `scanner.Scan()` on the unread input `data`. -/
def Scan (data : List Char) : ScanResult :=
  if data = [] then ScanResult.eof
  else
    let line := data.takeWhile (fun c => c != '\n')
    let rest := (data.dropWhile (fun c => c != '\n')).drop 1
    if MaxScanTokenSize ≤ byteLen line then ScanResult.tooLong
    else ScanResult.token (dropCR line) rest

/-- The loop `for scanner.Scan() { ... }` of `readAddressesFromFile` followed by the test
of `scanner.Err()`. Every token consumes at least one character of the input, so `fuel`
larger than the length of the input is never used up. -/
def scanLoop : Nat → List Char → List String → Except FileError (List String)
  | 0, _, addresses => Except.ok addresses
  | fuel + 1, data, addresses =>
    match Scan data with
    | ScanResult.eof => Except.ok addresses
    | ScanResult.tooLong => Except.error FileError.tooLong
    | ScanResult.token text rest =>
      let line := TrimSpace text
      if 0 < line.length then scanLoop fuel rest (addresses ++ [String.mk line])
      else scanLoop fuel rest addresses

/-- `readAddressesFromFile(filename)`, given what `os.Open` finds: `none` when the file
cannot be opened, else its content as the code points of its UTF-8 text. -/
def readAddressesFromFile (file : Option (List Char)) : Except FileError (List String) :=
  match file with
  | none => Except.error FileError.openError
  | some content => scanLoop (content.length + 1) content []

/-- What `rpc.Dial` makes of the URL it is given, by the scheme of the URL: `http` and
`https` give an HTTP client, `ws` and `wss` a websocket, `stdio` the standard streams, a
URL without scheme is the path of an IPC socket, and any other scheme (or a URL that does
not parse) has no transport. -/
inductive Transport where
  | http
  | websocket
  | stdio
  | ipc
  | unknown
deriving DecidableEq, Repr

/-- What the process finds in one outer cycle: the content of `settings.json` (`none` when
it cannot be read), what `json.Unmarshal` makes of it, the files by name, the transport of
a URL, whether a connection to the endpoint of a URL can be established, and how the
chain reads and the HTTP requests of the sweep end. -/
structure World where
  settingsFile : Option (List Char)
  unmarshal : List Char → Option Settings
  files : String → Option (List Char)
  transport : String → Transport
  reachable : String → Bool
  reader : Nat → String → CallOutcome
  notifier : Nat → String → SendOutcome

/-- Whether `ethclient.Dial(rawurl)` returns without error. For an HTTP URL the client is
created without any connection being made, so there is no error whatever the endpoint; a
websocket or an IPC socket is connected by `Dial`, which fails when the endpoint cannot be
reached; a URL without known transport is an error. -/
def Dial (w : World) (rawurl : String) : Bool :=
  match w.transport rawurl with
  | Transport.http => true
  | Transport.stdio => true
  | Transport.websocket => w.reachable rawurl
  | Transport.ipc => w.reachable rawurl
  | Transport.unknown => false

/-- The body of the loop of `main`: read and parse `settings.json`, read the address file,
connect, sweep, wait. Each setup failure is a `log.Fatalf`. -/
def mainCycle (w : World) : Run :=
  match w.settingsFile with
  | none =>
    ⟨[Event.readFile "settings.json", Event.fatal "Gagal membaca file settings.json"], true⟩
  | some file =>
    match w.unmarshal file with
    | none =>
      ⟨[Event.readFile "settings.json", Event.unmarshal,
        Event.fatal "Gagal mem-parsing settings.json"], true⟩
    | some settings =>
      let pre := [Event.readFile "settings.json", Event.unmarshal,
        Event.openFile settings.AddressesFile]
      match readAddressesFromFile (w.files settings.AddressesFile) with
      | Except.error _ => ⟨pre ++ [Event.fatal "Gagal membaca file alamat"], true⟩
      | Except.ok addresses =>
        if Dial w settings.BASERPCURL then
          let r := checkBalances w.reader w.notifier settings.WETHContractAddress addresses
            settings
          if r.exited then ⟨pre ++ [Event.dial settings.BASERPCURL] ++ r.events, true⟩
          else
            ⟨pre ++ [Event.dial settings.BASERPCURL] ++ r.events
              ++ [Event.logWaiting, Event.sleep checkInterval], false⟩
        else
          ⟨pre ++ [Event.dial settings.BASERPCURL,
            Event.fatal "Gagal terhubung ke BASE RPC"], true⟩

/-- The first `cycles` iterations of the endless loop of `main`, starting with cycle `k`:
the loop goes on to the next cycle only when the current one returned. -/
def main (worlds : Nat → World) : Nat → Nat → Run
  | 0, _ => ⟨[], false⟩
  | cycles + 1, k =>
    let r := mainCycle (worlds k)
    if r.exited then r
    else
      let r2 := main worlds cycles (k + 1)
      ⟨r.events ++ r2.events, r2.exited⟩

/-! ## Observations on traces and the address list the specification describes -/

/-- The text of a notification request, if the event is one. -/
def Event.notification? : Event → Option String
  | Event.telegramGet _ _ text => some text
  | _ => none

/-- The address a loop iteration starts to check, if the event is the start of one. -/
def Event.checked? : Event → Option String
  | Event.logChecking _ _ addr => some addr
  | _ => none

/-- The address of a contract call, if the event is one. -/
def Event.called? : Event → Option String
  | Event.callContract _ addr => some addr
  | _ => none

/-- Whether the event is one of the log lines of `sendTelegramMessage`. -/
def Event.isSendLog : Event → Bool
  | Event.logSendError => true
  | Event.logSendStatus _ => true
  | Event.logSendOk => true
  | _ => false

/-- Whether the event is a `time.Sleep`. -/
def Event.isSleep : Event → Bool
  | Event.sleep _ => true
  | _ => false

/-- The texts of the notifications requested in a trace, in order. -/
def notifications (es : List Event) : List String := es.filterMap Event.notification?

/-- The addresses whose check is started in a trace, in order. -/
def checkedAddresses (es : List Event) : List String := es.filterMap Event.checked?

/-- The addresses of the contract calls of a trace, in order. -/
def contractCalls (es : List Event) : List String := es.filterMap Event.called?

/-- A trace without the log lines of `sendTelegramMessage`. -/
def withoutSendLogs (es : List Event) : List Event := es.filter (fun e => !e.isSendLog)

/-- The decimal amount `B / 10^18` of a raw balance. -/
def decimalBalance (B : Nat) : ℚ := (B : ℚ) / 1000000000000000000

/-- The `<decimal>` text of a raw balance in the log and the alerts: `balanceWETH.String()`,
which the library defines as `Text('g', 10)`. -/
def amountText (B : Nat) : String :=
  match balanceWETH B with
  | some amount => amount.Text 10
  | none => ""

/-- The notification the sweep is to request for the address `addr` at index `i`: the
alert text when the call and the decoding succeed with a decimal balance strictly above
`0.002`, none otherwise. -/
def expectedAlert (reader : Nat → String → CallOutcome) (p : Nat × String) : Option String :=
  match reader p.1 p.2 with
  | CallOutcome.balance B =>
    if (2 : ℚ) / 1000 < decimalBalance B then some (alertMessage p.2 (amountText B)) else none
  | _ => none

/-- Whether the pack step of the address at index `i` succeeds, so that the contract
call is made. -/
def packs (reader : Nat → String → CallOutcome) (p : Nat × String) : Bool :=
  decide (reader p.1 p.2 ≠ CallOutcome.packError)

/-- The lines of a file content: the pieces between its newline characters. -/
def fileLines (content : List Char) : List (List Char) := content.splitOn '\n'

/-- Whether a line is too long for the scanner: `MaxScanTokenSize` bytes or more. -/
def tooLong (line : List Char) : Bool := decide (MaxScanTokenSize ≤ byteLen line)

/-- Whether a line is blank: empty, or made of white space only. -/
def isBlank (line : List Char) : Bool := line.all IsSpace

/-- Whether a line is a blank line that fits the scanner: blank, with fewer than
`MaxScanTokenSize` bytes. -/
def isShortBlank (line : List Char) : Bool :=
  isBlank line && decide (byteLen line < MaxScanTokenSize)

/-- The address list the specification describes for a list of lines: every line
trimmed of leading and trailing white space, the non-empty results kept, in order. -/
def addressesOfLines (ls : List (List Char)) : List String :=
  ((ls.map TrimSpace).filter (fun l => !l.isEmpty)).map String.mk

/-- The address list the specification describes for a file content: its lines, trimmed,
without the blank ones. -/
def specAddresses (content : List Char) : List String := addressesOfLines (fileLines content)

/-- A list of digits without its leading and its trailing zeros. -/
def stripZeros (m : List Char) : List Char :=
  ((m.dropWhile (fun c => c == '0')).reverse.dropWhile (fun c => c == '0')).reverse

/-- The significant digits of a rendered number: the digits that stand before the exponent
part, if there is one, without the leading and the trailing zeros. -/
def significantDigits (s : String) : List Char :=
  stripZeros ((s.data.takeWhile (fun c => c != 'e')).filter Char.isDigit)

/-- A list of characters that is at most `k` characters between zeros. -/
def ZeroPadded (k : Nat) (l : List Char) : Prop :=
  ∃ z₁ m z₂, l = z₁ ++ m ++ z₂ ∧ (∀ c ∈ z₁, c = '0') ∧ (∀ c ∈ z₂, c = '0') ∧ m.length ≤ k

end Main

/-! ## `big.Float`: bit lengths, rounding to nearest, the quotient, the comparison -/

namespace big

theorem bitLenAux_zero (fuel : Nat) : bitLenAux fuel 0 = 0 := by
  cases fuel <;> simp [bitLenAux]

theorem bitLenAux_spec (fuel : Nat) :
    ∀ n, n ≤ fuel → n < 2 ^ bitLenAux fuel n ∧ (0 < n → 2 ^ bitLenAux fuel n ≤ 2 * n) := by
  induction fuel with
  | zero =>
    intro n hn
    have h0 : n = 0 := by omega
    subst h0
    simp [bitLenAux]
  | succ f ih =>
    intro n hn
    by_cases h0 : n = 0
    · subst h0
      simp [bitLenAux]
    · have hlt : n / 2 ≤ f := by omega
      obtain ⟨h1, h2⟩ := ih (n / 2) hlt
      simp only [bitLenAux, h0, if_false]
      constructor
      · rw [pow_succ]; omega
      · intro _
        rw [pow_succ]
        by_cases h : 0 < n / 2
        · have := h2 h
          omega
        · have hz : n / 2 = 0 := by omega
          rw [hz, bitLenAux_zero]
          simp
          omega

theorem lt_two_pow_bitLen (n : Nat) : n < 2 ^ bitLen n :=
  (bitLenAux_spec n n (le_refl n)).1

theorem two_pow_bitLen_le (n : Nat) (h : 0 < n) : 2 ^ bitLen n ≤ 2 * n :=
  (bitLenAux_spec n n (le_refl n)).2 h

theorem bitLen_zero : bitLen 0 = 0 := by simp [bitLen, bitLenAux]

theorem bitLen_pos (n : Nat) (h : 0 < n) : 0 < bitLen n := by
  by_contra hb
  have h0 : bitLen n = 0 := by omega
  have := lt_two_pow_bitLen n
  rw [h0] at this
  omega

/-- The bit length is characterised by its two bounds. -/
theorem bitLen_eq_of_bounds (n b : Nat) (h1 : n < 2 ^ b) (h2 : 2 ^ b ≤ 2 * n) : bitLen n = b := by
  have hn : 0 < n := by
    rcases Nat.eq_zero_or_pos n with h | h
    · subst h; have := Nat.two_pow_pos b; omega
    · exact h
  have a1 := lt_two_pow_bitLen n
  have a2 := two_pow_bitLen_le n hn
  rcases Nat.lt_trichotomy (bitLen n) b with h | h | h
  · have : 2 ^ (bitLen n + 1) ≤ 2 ^ b := Nat.pow_le_pow_right (by decide) h
    rw [pow_succ] at this
    omega
  · exact h
  · have : 2 ^ (b + 1) ≤ 2 ^ bitLen n := Nat.pow_le_pow_right (by decide) h
    rw [pow_succ] at this
    omega

theorem bitLen_le_of_lt_pow {n b : Nat} (h : n < 2 ^ b) : bitLen n ≤ b := by
  by_contra hlt
  have hlt : b + 1 ≤ bitLen n := by omega
  have hn : 0 < n := by
    rcases Nat.eq_zero_or_pos n with h0 | h0
    · subst h0; rw [bitLen_zero] at hlt; omega
    · exact h0
  have h1 := two_pow_bitLen_le n hn
  have : 2 ^ (b + 1) ≤ 2 ^ bitLen n := Nat.pow_le_pow_right (by decide) hlt
  rw [pow_succ] at this
  omega

theorem lt_bitLen_of_pow_le {n b : Nat} (h : 2 ^ b ≤ n) : b < bitLen n := by
  by_contra hlt
  have hlt : bitLen n ≤ b := by omega
  have h2 := lt_two_pow_bitLen n
  have : 2 ^ bitLen n ≤ 2 ^ b := Nat.pow_le_pow_right (by decide) hlt
  omega

/-- The body of `Float.round` when `r + 1` bits are dropped. -/
theorem round_of_bits (prec m : Nat) (exp : Int) (sbit : Bool) (r : Nat)
    (hr : bitLen m = prec + r + 1) :
    Float.round prec m exp sbit =
      if (decide ((m / 2 ^ r) % 2 = 1) &&
          ((sbit || decide (m % 2 ^ r ≠ 0)) || decide (m / 2 ^ (r + 1) % 2 = 1))) = true then
        if m / 2 ^ (r + 1) + 1 = 2 ^ prec then
          if MaxExp ≤ exp then ⟨prec, Form.inf, 0, 0⟩
          else ⟨prec, Form.finite, 2 ^ (prec - 1), exp + 1⟩
        else ⟨prec, Form.finite, m / 2 ^ (r + 1) + 1, exp⟩
      else ⟨prec, Form.finite, m / 2 ^ (r + 1), exp⟩ := by
  have hnot : ¬ (bitLen m ≤ prec) := by omega
  have e2 : bitLen m - prec - 1 = r := by omega
  simp only [Float.round, hnot, if_false, e2]

/-- Integer form of round-to-nearest: the kept mantissa `M` of `Float.round` is within half a
unit (`2^r` of the dropped `2^(r+1)`) of `m`, and a rounding down by exactly half a unit
happens only without a sticky bit. -/
theorem round_spec (prec m : Nat) (exp : Int) (sbit : Bool) (r : Nat) (hp : 0 < prec)
    (hr : bitLen m = prec + r + 1) (hexp : exp < MaxExp) :
    ∃ M : Nat, (Float.round prec m exp sbit).form = Form.finite ∧
      toRat (Float.round prec m exp sbit) = (M : ℚ) * (2 : ℚ) ^ (exp - (prec : Int)) ∧
      2 ^ (prec - 1) ≤ M ∧
      2 ^ (r + 1) * M ≤ m + 2 ^ r ∧
      (m < 2 ^ (r + 1) * M + 2 ^ r ∨ (sbit = false ∧ m = 2 ^ (r + 1) * M + 2 ^ r)) := by
  have hm : 0 < m := by
    rcases Nat.eq_zero_or_pos m with h | h
    · subst h; rw [bitLen_zero] at hr; omega
    · exact h
  have hlt := lt_two_pow_bitLen m
  have hle := two_pow_bitLen_le m hm
  rw [hr] at hlt hle
  have hpp : 2 ^ (prec + r + 1) = 2 ^ (r + 1) * 2 ^ prec := by
    rw [← pow_add]; congr 1; omega
  have hP : 2 ^ prec = 2 ^ (prec - 1) * 2 := by
    have : prec = (prec - 1) + 1 := by omega
    conv_lhs => rw [this]
    rw [pow_succ]
  have hR : 0 < 2 ^ (r + 1) := Nat.two_pow_pos _
  have hR2 : 2 ^ (r + 1) = 2 ^ r * 2 := pow_succ 2 r
  have hr0 : 0 < 2 ^ r := Nat.two_pow_pos _
  have hdm := Nat.div_add_mod m (2 ^ (r + 1))
  have hmodlt := Nat.mod_lt m hR
  have hsplit : m % 2 ^ (r + 1) = m % 2 ^ r + 2 ^ r * (m / 2 ^ r % 2) := Nat.mod_pow_succ
  have hmodr := Nat.mod_lt m hr0
  have hsucc : 2 ^ (r + 1) * (m / 2 ^ (r + 1) + 1) = 2 ^ (r + 1) * (m / 2 ^ (r + 1)) + 2 ^ (r + 1) :=
    Nat.mul_succ _ _
  have hqhi : m / 2 ^ (r + 1) < 2 ^ prec := by
    rw [Nat.div_lt_iff_lt_mul hR, Nat.mul_comm, ← hpp]
    exact hlt
  have hqlo : 2 ^ (prec - 1) ≤ m / 2 ^ (r + 1) := by
    rw [Nat.le_div_iff_mul_le hR]
    rw [hpp, hP] at hle
    have e : 2 ^ (r + 1) * (2 ^ (prec - 1) * 2) = 2 * (2 ^ (prec - 1) * 2 ^ (r + 1)) := by ring
    omega
  have hbq : ∀ M : Nat, 2 ^ (prec - 1) ≤ M → M < 2 ^ prec → bitLen M = prec := by
    intro M h1 h2
    exact bitLen_eq_of_bounds M prec h2 (by rw [hP]; omega)
  rw [round_of_bits prec m exp sbit r hr]
  by_cases hinc : (decide ((m / 2 ^ r) % 2 = 1) &&
      ((sbit || decide (m % 2 ^ r ≠ 0)) || decide (m / 2 ^ (r + 1) % 2 = 1))) = true
  · rw [if_pos hinc]
    have hrb : m / 2 ^ r % 2 = 1 := by
      simp only [Bool.and_eq_true, decide_eq_true_eq] at hinc
      exact hinc.1
    rw [hrb] at hsplit
    by_cases hov : m / 2 ^ (r + 1) + 1 = 2 ^ prec
    · rw [if_pos hov]
      have hne : ¬ (MaxExp ≤ exp) := by omega
      rw [if_neg hne]
      refine ⟨2 ^ prec, rfl, ?_, ?_, ?_, ?_⟩
      · simp only [toRat]
        have hb : bitLen (2 ^ (prec - 1)) = prec :=
          hbq _ (le_refl _) (by rw [hP]; omega)
        rw [hb]
        have hz : (2 : ℚ) ^ (exp - (prec : Int)) * 2 = (2 : ℚ) ^ (exp + 1 - (prec : Int)) := by
          rw [show exp + 1 - (prec : Int) = (exp - (prec : Int)) + 1 by ring]
          rw [zpow_add_one₀ (by norm_num)]
        rw [← hz]
        have hPq : (2 : ℚ) ^ prec = (2 : ℚ) ^ (prec - 1) * 2 := by exact_mod_cast hP
        push_cast
        rw [hPq]
        ring
      · rw [hP]; omega
      · rw [← hov, hsucc]; omega
      · left; rw [← hov, hsucc]; omega
    · rw [if_neg hov]
      refine ⟨m / 2 ^ (r + 1) + 1, rfl, ?_, ?_, ?_, ?_⟩
      · simp only [toRat]
        rw [hbq _ (by omega) (by omega)]
      · omega
      · rw [hsucc]; omega
      · left; rw [hsucc]; omega
  · rw [if_neg hinc]
    refine ⟨m / 2 ^ (r + 1), rfl, ?_, hqlo, ?_, ?_⟩
    · simp only [toRat]
      rw [hbq _ hqlo hqhi]
    · omega
    · simp only [Bool.and_eq_true, Bool.or_eq_true, decide_eq_true_eq, not_and, not_or] at hinc
      by_cases hrb : m / 2 ^ r % 2 = 1
      · have h3 := hinc hrb
        rw [hrb] at hsplit
        right
        refine ⟨by simpa using h3.1.1, ?_⟩
        have h4 : m % 2 ^ r = 0 := by simpa using h3.1.2
        omega
      · have h0 : m / 2 ^ r % 2 = 0 := by omega
        rw [h0] at hsplit
        left
        omega

theorem two_zpow_pos (k : Int) : (0 : ℚ) < (2 : ℚ) ^ k := zpow_pos (by norm_num) k

theorem one_le_two_pow_rat (d : Nat) : (1 : ℚ) ≤ (2 : ℚ) ^ d := one_le_pow₀ (by norm_num)

/-- Rounding never crosses a value that is representable with `p` bits, from below. -/
theorem Rounds.le_of_le {p : Nat} {V R : ℚ} (h : Rounds p V R) (hp : 0 < p) (N : Nat) (j : Int)
    (hN : N < 2 ^ p) (hV : V ≤ (N : ℚ) * (2 : ℚ) ^ j) : R ≤ (N : ℚ) * (2 : ℚ) ^ j := by
  obtain ⟨k, M, hR, hM, hlo, hnear⟩ := h
  have hu := two_zpow_pos k
  have hNq : (N : ℚ) < (2 : ℚ) ^ p := by exact_mod_cast hN
  have hPq : (2 : ℚ) ^ p = (2 : ℚ) ^ (p - 1) * 2 := by
    have : p = (p - 1) + 1 := by omega
    conv_lhs => rw [this]
    rw [pow_succ]
  rcases le_or_lt k j with hkj | hjk
  · obtain ⟨d, hd⟩ : ∃ d : Nat, j = k + (d : Int) := ⟨(j - k).toNat, by omega⟩
    have h2 : (2 : ℚ) ^ j = (2 : ℚ) ^ k * (2 : ℚ) ^ d := by
      rw [hd, zpow_add₀ (by norm_num), zpow_natCast]
    rw [h2] at hV ⊢
    rw [hR] at hnear ⊢
    have h3 := (abs_le.mp hnear).1
    have h4 : ((M : ℚ) - (N : ℚ) * (2 : ℚ) ^ d - 1 / 2) * (2 : ℚ) ^ k ≤ 0 := by nlinarith
    have h5 : (M : ℚ) - (N : ℚ) * (2 : ℚ) ^ d - 1 / 2 ≤ 0 := by
      by_contra hc
      push_neg at hc
      have := mul_pos hc hu
      linarith
    have h6 : ((M : Nat) : ℚ) < ((N * 2 ^ d + 1 : Nat) : ℚ) := by
      push_cast
      linarith
    have h7 : M < N * 2 ^ d + 1 := by exact_mod_cast h6
    have h8 : M ≤ N * 2 ^ d := by omega
    have h9 : (M : ℚ) ≤ (N : ℚ) * (2 : ℚ) ^ d := by exact_mod_cast h8
    nlinarith
  · exfalso
    obtain ⟨d, hd⟩ : ∃ d : Nat, k = j + 1 + (d : Int) := ⟨(k - j - 1).toNat, by omega⟩
    have h2 : (2 : ℚ) ^ k = (2 : ℚ) ^ j * 2 * (2 : ℚ) ^ d := by
      rw [hd, zpow_add₀ (by norm_num), zpow_add_one₀ (by norm_num), zpow_natCast]
    have hj := two_zpow_pos j
    have hd1 := one_le_two_pow_rat d
    have h3 : (2 : ℚ) ^ p * (2 : ℚ) ^ j ≤ (2 : ℚ) ^ (p - 1) * (2 : ℚ) ^ k := by
      rw [h2, hPq]
      have : 0 < (2 : ℚ) ^ (p - 1) * 2 * (2 : ℚ) ^ j := by positivity
      nlinarith
    have h4 : (N : ℚ) * (2 : ℚ) ^ j < (2 : ℚ) ^ p * (2 : ℚ) ^ j := by nlinarith
    linarith

/-- Rounding never crosses a value that is representable with `p` bits, from above. -/
theorem Rounds.ge_of_ge {p : Nat} {V R : ℚ} (h : Rounds p V R) (hp : 0 < p) (N : Nat) (j : Int)
    (hN : N < 2 ^ p) (hV : (N : ℚ) * (2 : ℚ) ^ j ≤ V) : (N : ℚ) * (2 : ℚ) ^ j ≤ R := by
  obtain ⟨k, M, hR, hM, hlo, hnear⟩ := h
  have hu := two_zpow_pos k
  have hNq : (N : ℚ) < (2 : ℚ) ^ p := by exact_mod_cast hN
  have hMq : (2 : ℚ) ^ (p - 1) ≤ (M : ℚ) := by exact_mod_cast hM
  have hPq : (2 : ℚ) ^ p = (2 : ℚ) ^ (p - 1) * 2 := by
    have : p = (p - 1) + 1 := by omega
    conv_lhs => rw [this]
    rw [pow_succ]
  rcases le_or_lt k j with hkj | hjk
  · obtain ⟨d, hd⟩ : ∃ d : Nat, j = k + (d : Int) := ⟨(j - k).toNat, by omega⟩
    have h2 : (2 : ℚ) ^ j = (2 : ℚ) ^ k * (2 : ℚ) ^ d := by
      rw [hd, zpow_add₀ (by norm_num), zpow_natCast]
    rw [h2] at hV ⊢
    rw [hR] at hnear ⊢
    have h3 := (abs_le.mp hnear).2
    have h4 : ((N : ℚ) * (2 : ℚ) ^ d - (M : ℚ) - 1 / 2) * (2 : ℚ) ^ k ≤ 0 := by nlinarith
    have h5 : (N : ℚ) * (2 : ℚ) ^ d - (M : ℚ) - 1 / 2 ≤ 0 := by
      by_contra hc
      push_neg at hc
      have := mul_pos hc hu
      linarith
    have h6 : ((N * 2 ^ d : Nat) : ℚ) < ((M + 1 : Nat) : ℚ) := by
      push_cast
      linarith
    have h7 : N * 2 ^ d < M + 1 := by exact_mod_cast h6
    have h8 : N * 2 ^ d ≤ M := by omega
    have h9 : (N : ℚ) * (2 : ℚ) ^ d ≤ (M : ℚ) := by exact_mod_cast h8
    nlinarith
  · obtain ⟨d, hd⟩ : ∃ d : Nat, k = j + 1 + (d : Int) := ⟨(k - j - 1).toNat, by omega⟩
    have h2 : (2 : ℚ) ^ k = (2 : ℚ) ^ j * 2 * (2 : ℚ) ^ d := by
      rw [hd, zpow_add₀ (by norm_num), zpow_add_one₀ (by norm_num), zpow_natCast]
    have hj := two_zpow_pos j
    have hd1 := one_le_two_pow_rat d
    have h3 : (2 : ℚ) ^ p * (2 : ℚ) ^ j ≤ (2 : ℚ) ^ (p - 1) * (2 : ℚ) ^ k := by
      rw [h2, hPq]
      have : 0 < (2 : ℚ) ^ (p - 1) * 2 * (2 : ℚ) ^ j := by positivity
      nlinarith
    have h4 : (N : ℚ) * (2 : ℚ) ^ j ≤ (2 : ℚ) ^ p * (2 : ℚ) ^ j := by nlinarith
    have h5 : (2 : ℚ) ^ (p - 1) * (2 : ℚ) ^ k ≤ (M : ℚ) * (2 : ℚ) ^ k := by nlinarith
    rw [hR]
    linarith

/-- The relative error of a rounding to `p` bits is at most `2^-p`. -/
theorem Rounds.abs_sub_le {p : Nat} {V R : ℚ} (h : Rounds p V R) (hp : 0 < p) :
    |V - R| * (2 : ℚ) ^ p ≤ V := by
  obtain ⟨k, M, hR, hM, hlo, hnear⟩ := h
  have hPq : (2 : ℚ) ^ p = (2 : ℚ) ^ (p - 1) * 2 := by
    have : p = (p - 1) + 1 := by omega
    conv_lhs => rw [this]
    rw [pow_succ]
  have hpos : (0 : ℚ) < (2 : ℚ) ^ (p - 1) := by positivity
  have : |V - R| * (2 : ℚ) ^ p ≤ (2 : ℚ) ^ k / 2 * (2 : ℚ) ^ p :=
    mul_le_mul_of_nonneg_right hnear (by positivity)
  rw [hPq] at this ⊢
  calc |V - R| * ((2 : ℚ) ^ (p - 1) * 2) ≤ (2 : ℚ) ^ k / 2 * ((2 : ℚ) ^ (p - 1) * 2) := this
    _ = (2 : ℚ) ^ (p - 1) * (2 : ℚ) ^ k := by ring
    _ ≤ V := hlo

/-- The integer quotient computed by `uquo` holds at least `prec + 1` bits and at most
one bit more than the difference of the operand lengths suggests. -/
theorem uquo_quotient_bits (prec xm ym : Nat) (hx : 0 < xm) (hy : 0 < ym) :
    prec + 1 ≤ bitLen (xm * 2 ^ (prec + 1 + bitLen ym - bitLen xm) / ym) ∧
    bitLen xm + (prec + 1 + bitLen ym - bitLen xm) ≤
      bitLen (xm * 2 ^ (prec + 1 + bitLen ym - bitLen xm) / ym) + bitLen ym ∧
    bitLen (xm * 2 ^ (prec + 1 + bitLen ym - bitLen xm) / ym) + bitLen ym ≤
      bitLen xm + (prec + 1 + bitLen ym - bitLen xm) + 1 := by
  generalize hs : prec + 1 + bitLen ym - bitLen xm = s
  have hxl := lt_two_pow_bitLen xm
  have hxh := two_pow_bitLen_le xm hx
  have hyl := lt_two_pow_bitLen ym
  have hyh := two_pow_bitLen_le ym hy
  have hbx := bitLen_pos xm hx
  have hby := bitLen_pos ym hy
  have hS : 0 < 2 ^ s := Nat.two_pow_pos s
  -- lower bound: 2^(bx + s - by - 1) ≤ q
  have hge : bitLen ym + 1 ≤ bitLen xm + s := by omega
  obtain ⟨c, hc⟩ : ∃ c, bitLen xm + s = bitLen ym + 1 + c := ⟨bitLen xm + s - bitLen ym - 1, by omega⟩
  have hlow : 2 ^ c ≤ xm * 2 ^ s / ym := by
    rw [Nat.le_div_iff_mul_le hy]
    have h1 : 2 ^ (bitLen xm + s) ≤ 2 * (xm * 2 ^ s) := by
      rw [pow_add]
      calc 2 ^ bitLen xm * 2 ^ s ≤ 2 * xm * 2 ^ s := Nat.mul_le_mul_right _ hxh
        _ = 2 * (xm * 2 ^ s) := by ring
    have h2 : 2 ^ (bitLen xm + s) = 2 * (2 ^ c * 2 ^ bitLen ym) := by
      rw [hc]
      rw [show bitLen ym + 1 + c = c + bitLen ym + 1 by omega, pow_succ, pow_add]
      ring
    have h3 : 2 ^ c * ym ≤ 2 ^ c * 2 ^ bitLen ym := Nat.mul_le_mul_left _ (le_of_lt hyl)
    omega
  have hhigh : xm * 2 ^ s / ym < 2 ^ (c + 2) := by
    rw [Nat.div_lt_iff_lt_mul hy]
    have h1 : xm * 2 ^ s < 2 ^ bitLen xm * 2 ^ s := Nat.mul_lt_mul_of_pos_right hxl hS
    have h2 : 2 ^ bitLen xm * 2 ^ s = 2 ^ (c + 1) * 2 ^ bitLen ym := by
      rw [← pow_add, ← pow_add, hc]
      congr 1
      omega
    have h3 : 2 ^ (c + 1) * 2 ^ bitLen ym ≤ 2 ^ (c + 1) * (2 * ym) := Nat.mul_le_mul_left _ hyh
    have h4 : 2 ^ (c + 2) * ym = 2 ^ (c + 1) * (2 * ym) := by
      rw [pow_succ]
      ring
    omega
  have hb1 := lt_bitLen_of_pow_le hlow
  have hb2 := bitLen_le_of_lt_pow hhigh
  omega

/-- The quotient `uquo prec x y` of two finite positive values is finite, keeps `prec`
bits and is a round-to-nearest of the exact quotient, when the exponent difference is
within the exponent range. -/
theorem uquo_rounds (prec : Nat) (x y : Float) (hp : 0 < prec)
    (hxf : x.form = Form.finite) (hyf : y.form = Form.finite)
    (hx : 0 < x.mant) (hy : 0 < y.mant)
    (hlo : MinExp ≤ x.exp - y.exp) (hhi : x.exp - y.exp + 1 < MaxExp) :
    (uquo prec x y).form = Form.finite ∧
      Rounds prec (toRat x / toRat y) (toRat (uquo prec x y)) := by
  obtain ⟨hq1, hq2, hq3⟩ := uquo_quotient_bits prec x.mant y.mant hx hy
  simp only [uquo, setExpAndRound]
  generalize hs : prec + 1 + bitLen y.mant - bitLen x.mant = s at hq1 hq2 hq3 ⊢
  generalize hq : x.mant * 2 ^ s / y.mant = q at hq1 hq2 hq3 ⊢
  obtain ⟨r, hr⟩ : ∃ r, bitLen q = prec + r + 1 := ⟨bitLen q - prec - 1, by omega⟩
  generalize he : x.exp - (bitLen x.mant : Int) - (y.exp - (bitLen y.mant : Int)) - (s : Int) = e
  have hE1 : ¬ (e + (bitLen q : Int) < MinExp) := by omega
  have hE2 : ¬ (MaxExp < e + (bitLen q : Int)) := by omega
  rw [if_neg hE1, if_neg hE2]
  obtain ⟨M, hform, hval, hM, hup, hdown⟩ :=
    round_spec prec q (e + (bitLen q : Int)) (decide (x.mant * 2 ^ s % y.mant ≠ 0)) r hp hr
      (by omega)
  refine ⟨hform, e + ((r + 1 : Nat) : Int), M, ?_, hM, ?_, ?_⟩
  · rw [hval]
    congr 2
    rw [hr]
    push_cast
    ring
  all_goals
    have hu := two_zpow_pos e
    have hk : (2 : ℚ) ^ (e + ((r + 1 : Nat) : Int)) = (2 : ℚ) ^ (r + 1) * (2 : ℚ) ^ e := by
      rw [zpow_add₀ (by norm_num), zpow_natCast]
      ring
    have hymq : (0 : ℚ) < (y.mant : ℚ) := by exact_mod_cast hy
    have hV : toRat x / toRat y
        = ((x.mant : ℚ) * (2 : ℚ) ^ s / (y.mant : ℚ)) * (2 : ℚ) ^ e := by
      have hE : (2 : ℚ) ^ e = (2 : ℚ) ^ (x.exp - (bitLen x.mant : Int))
          / (2 : ℚ) ^ (y.exp - (bitLen y.mant : Int)) / (2 : ℚ) ^ s := by
        rw [← he, zpow_sub₀ (by norm_num), zpow_sub₀ (by norm_num), zpow_natCast]
      simp only [toRat, hxf, hyf]
      rw [hE]
      have h1 := two_zpow_pos (x.exp - (bitLen x.mant : Int))
      have h2 := two_zpow_pos (y.exp - (bitLen y.mant : Int))
      have h3 : (0 : ℚ) < (2 : ℚ) ^ s := by positivity
      generalize (2 : ℚ) ^ (x.exp - (bitLen x.mant : Int)) = a at h1 ⊢
      generalize (2 : ℚ) ^ (y.exp - (bitLen y.mant : Int)) = b at h2 ⊢
      generalize (2 : ℚ) ^ s = c at h3 ⊢
      field_simp
      ring
    have hdm := Nat.div_add_mod (x.mant * 2 ^ s) y.mant
    rw [hq] at hdm
    have hmodlt := Nat.mod_lt (x.mant * 2 ^ s) hy
    have hdmq : (y.mant : ℚ) * (q : ℚ) + ((x.mant * 2 ^ s % y.mant : Nat) : ℚ)
        = (x.mant : ℚ) * (2 : ℚ) ^ s := by exact_mod_cast hdm
    have hremq : ((x.mant * 2 ^ s % y.mant : Nat) : ℚ) < (y.mant : ℚ) := by exact_mod_cast hmodlt
    have hrem0 : (0 : ℚ) ≤ ((x.mant * 2 ^ s % y.mant : Nat) : ℚ) := Nat.cast_nonneg _
    have ht : (x.mant : ℚ) * (2 : ℚ) ^ s / (y.mant : ℚ)
        = (q : ℚ) + ((x.mant * 2 ^ s % y.mant : Nat) : ℚ) / (y.mant : ℚ) := by
      rw [← hdmq]
      field_simp
      ring
    have hfrac0 : (0 : ℚ) ≤ ((x.mant * 2 ^ s % y.mant : Nat) : ℚ) / (y.mant : ℚ) :=
      div_nonneg hrem0 (le_of_lt hymq)
    have hfrac1 : ((x.mant * 2 ^ s % y.mant : Nat) : ℚ) / (y.mant : ℚ) < 1 := by
      rw [div_lt_one hymq]
      exact hremq
    rw [hV, ht]
  · -- the value is at least `2^(prec-1)` units
    rw [hk]
    have hql := two_pow_bitLen_le q (by
      rcases Nat.eq_zero_or_pos q with h | h
      · subst h; rw [bitLen_zero] at hr; omega
      · exact h)
    rw [hr] at hql
    have h1 : 2 ^ (prec + r + 1) = 2 * (2 ^ (prec - 1) * 2 ^ (r + 1)) := by
      rw [show prec + r + 1 = (prec - 1) + (r + 1) + 1 by omega, pow_succ, pow_add]
      ring
    have h2 : 2 ^ (prec - 1) * 2 ^ (r + 1) ≤ q := by omega
    have h3 : (2 : ℚ) ^ (prec - 1) * (2 : ℚ) ^ (r + 1) ≤ (q : ℚ) := by exact_mod_cast h2
    have h4 : (2 : ℚ) ^ (prec - 1) * (2 : ℚ) ^ (r + 1) * (2 : ℚ) ^ e
        ≤ ((q : ℚ) + ((x.mant * 2 ^ s % y.mant : Nat) : ℚ) / (y.mant : ℚ)) * (2 : ℚ) ^ e :=
      mul_le_mul_of_nonneg_right (by linarith) (le_of_lt hu)
    linarith
  · -- the result is within half a unit
    rw [hval]
    have hkk : (2 : ℚ) ^ (e + (bitLen q : Int) - (prec : Int))
        = (2 : ℚ) ^ (r + 1) * (2 : ℚ) ^ e := by
      rw [← hk]
      congr 1
      rw [hr]
      push_cast
      ring
    rw [hkk, hk]
    have hupq : (2 : ℚ) ^ (r + 1) * (M : ℚ) ≤ (q : ℚ) + (2 : ℚ) ^ r := by exact_mod_cast hup
    have hR2 : (2 : ℚ) ^ (r + 1) = (2 : ℚ) ^ r * 2 := pow_succ 2 r
    have hmain : |(q : ℚ) + ((x.mant * 2 ^ s % y.mant : Nat) : ℚ) / (y.mant : ℚ)
        - (M : ℚ) * (2 : ℚ) ^ (r + 1)| ≤ (2 : ℚ) ^ r := by
      rw [abs_le]
      constructor
      · linarith
      · rcases hdown with hd | ⟨hsb, hd⟩
        · have hd1 : q + 1 ≤ 2 ^ (r + 1) * M + 2 ^ r := hd
          have hd2 : (q : ℚ) + 1 ≤ (2 : ℚ) ^ (r + 1) * (M : ℚ) + (2 : ℚ) ^ r := by
            exact_mod_cast hd1
          linarith
        · have hz : x.mant * 2 ^ s % y.mant = 0 := by simpa using hsb
          have hd2 : (q : ℚ) = (2 : ℚ) ^ (r + 1) * (M : ℚ) + (2 : ℚ) ^ r := by
            exact_mod_cast hd
          rw [hz]
          simp only [Nat.cast_zero, zero_div, add_zero]
          linarith
    have : ((q : ℚ) + ((x.mant * 2 ^ s % y.mant : Nat) : ℚ) / (y.mant : ℚ)) * (2 : ℚ) ^ e
        - (M : ℚ) * ((2 : ℚ) ^ (r + 1) * (2 : ℚ) ^ e)
        = ((q : ℚ) + ((x.mant * 2 ^ s % y.mant : Nat) : ℚ) / (y.mant : ℚ)
            - (M : ℚ) * (2 : ℚ) ^ (r + 1)) * (2 : ℚ) ^ e := by ring
    rw [this, abs_mul, abs_of_pos hu]
    have h5 := mul_le_mul_of_nonneg_right hmain (le_of_lt hu)
    have h6 : (2 : ℚ) ^ (r + 1) * (2 : ℚ) ^ e / 2 = (2 : ℚ) ^ r * (2 : ℚ) ^ e := by
      rw [hR2]
      ring
    rw [h6]
    exact h5

theorem toRat_bounds (x : Float) (hf : x.form = Form.finite) (hm : 0 < x.mant) :
    (2 : ℚ) ^ (x.exp - 1) ≤ toRat x ∧ toRat x < (2 : ℚ) ^ x.exp := by
  have h1 := lt_two_pow_bitLen x.mant
  have h2 := two_pow_bitLen_le x.mant hm
  have h1q : (x.mant : ℚ) < (2 : ℚ) ^ bitLen x.mant := by exact_mod_cast h1
  have h2q : (2 : ℚ) ^ bitLen x.mant ≤ 2 * (x.mant : ℚ) := by exact_mod_cast h2
  have hu := two_zpow_pos (x.exp - (bitLen x.mant : Int))
  have e1 : (2 : ℚ) ^ x.exp = (2 : ℚ) ^ bitLen x.mant * (2 : ℚ) ^ (x.exp - (bitLen x.mant : Int)) := by
    rw [← zpow_natCast, ← zpow_add₀ (by norm_num)]
    congr 1
    ring
  have e2 : (2 : ℚ) ^ x.exp = (2 : ℚ) ^ (x.exp - 1) * 2 := by
    rw [← zpow_add_one₀ (by norm_num)]
    congr 1
    ring
  simp only [toRat, hf]
  constructor
  · have := mul_le_mul_of_nonneg_right h2q (le_of_lt hu)
    nlinarith
  · rw [e1]
    exact mul_lt_mul_of_pos_right h1q hu

theorem pos_of_toRat_pos (x : Float) (h : 0 < toRat x) : x.form = Form.finite ∧ 0 < x.mant := by
  unfold toRat at h
  cases hf : x.form <;> simp only [hf] at h
  · exact absurd h (lt_irrefl _)
  · refine ⟨rfl, ?_⟩
    rcases Nat.eq_zero_or_pos x.mant with h0 | h0
    · rw [h0] at h; simp at h
    · exact h0
  · exact absurd h (lt_irrefl _)

/-- `Cmp` orders finite positive values as their exact values. -/
theorem Cmp_pos_iff (x y : Float) (hxf : x.form = Form.finite) (hyf : y.form = Form.finite)
    (hx : 0 < x.mant) (hy : 0 < y.mant) : 0 < Cmp x y ↔ toRat y < toRat x := by
  obtain ⟨hx1, hx2⟩ := toRat_bounds x hxf hx
  obtain ⟨hy1, hy2⟩ := toRat_bounds y hyf hy
  simp only [Cmp, ord, hxf, hyf, lt_irrefl, if_false, if_true, ucmp]
  by_cases h1 : x.exp < y.exp
  · simp only [h1, if_true]
    have : (2 : ℚ) ^ x.exp ≤ (2 : ℚ) ^ (y.exp - 1) :=
      zpow_le_zpow_right₀ (by norm_num) (by omega)
    constructor
    · intro h; omega
    · intro h; linarith
  · simp only [h1, if_false]
    by_cases h2 : y.exp < x.exp
    · simp only [h2, if_true]
      have : (2 : ℚ) ^ y.exp ≤ (2 : ℚ) ^ (x.exp - 1) :=
        zpow_le_zpow_right₀ (by norm_num) (by omega)
      constructor
      · intro _; linarith
      · intro _; omega
    · simp only [h2, if_false]
      have he : x.exp = y.exp := by omega
      have hval : toRat y < toRat x ↔ y.mant * 2 ^ bitLen x.mant < x.mant * 2 ^ bitLen y.mant := by
        simp only [toRat, hxf, hyf, he]
        rw [zpow_sub₀ (by norm_num), zpow_sub₀ (by norm_num), zpow_natCast, zpow_natCast]
        have hE := two_zpow_pos y.exp
        have ha : (0 : ℚ) < (2 : ℚ) ^ bitLen x.mant := by positivity
        have hb : (0 : ℚ) < (2 : ℚ) ^ bitLen y.mant := by positivity
        rw [show (y.mant : ℚ) * ((2 : ℚ) ^ y.exp / (2 : ℚ) ^ bitLen y.mant)
            = ((y.mant : ℚ) * (2 : ℚ) ^ bitLen x.mant)
              * ((2 : ℚ) ^ y.exp / ((2 : ℚ) ^ bitLen y.mant * (2 : ℚ) ^ bitLen x.mant)) by
          field_simp; ring]
        rw [show (x.mant : ℚ) * ((2 : ℚ) ^ y.exp / (2 : ℚ) ^ bitLen x.mant)
            = ((x.mant : ℚ) * (2 : ℚ) ^ bitLen y.mant)
              * ((2 : ℚ) ^ y.exp / ((2 : ℚ) ^ bitLen y.mant * (2 : ℚ) ^ bitLen x.mant)) by
          field_simp; ring]
        have hc : (0 : ℚ) < (2 : ℚ) ^ y.exp / ((2 : ℚ) ^ bitLen y.mant * (2 : ℚ) ^ bitLen x.mant) := by
          positivity
        rw [mul_lt_mul_right hc]
        exact_mod_cast Iff.rfl
      rw [hval]
      by_cases h3 : x.mant * 2 ^ bitLen y.mant < y.mant * 2 ^ bitLen x.mant
      · simp only [h3, if_true]
        constructor
        · intro h; omega
        · intro h; omega
      · simp only [h3, if_false]
        by_cases h4 : y.mant * 2 ^ bitLen x.mant < x.mant * 2 ^ bitLen y.mant
        · simp only [h4, if_true]
          constructor
          · intro _; trivial
          · intro _; omega
        · simp only [h4, if_false]
          constructor
          · intro h; omega
          · intro h; exact absurd h (by simp)

/-- `SetInt` of a positive integer whose length fits the exponent range is exact: the
mantissa is the integer. -/
theorem SetInt_pos (B : Nat) (h0 : 0 < B) (hB : (bitLen B : Int) ≤ MaxExp) :
    SetInt B = ⟨max (bitLen B) 64, Form.finite, B, (bitLen B : Int)⟩ := by
  have h1 : ¬ ((bitLen B : Int) < MinExp) := by unfold MinExp; omega
  have h2 : ¬ (MaxExp < (bitLen B : Int)) := by omega
  have h3 : bitLen B ≤ max (bitLen B) 64 := le_max_left _ _
  have h4 : B ≠ 0 := by omega
  simp only [SetInt, setExpAndRound, Float.round, h1, h2, h3, h4, if_false, if_true]

/-- `SetInt` of an integer too long for the exponent range is infinite. -/
theorem SetInt_huge (B : Nat) (hB : MaxExp < (bitLen B : Int)) :
    SetInt B = ⟨max (bitLen B) 64, Form.inf, 0, 0⟩ := by
  have h1 : ¬ ((bitLen B : Int) < MinExp) := by unfold MinExp; omega
  have h4 : B ≠ 0 := by
    intro h
    subst h
    rw [bitLen_zero] at hB
    unfold MaxExp at hB
    omega
  simp only [SetInt, setExpAndRound, h1, hB, h4, if_false, if_true]

end big

/-! ## The amount `balanceWETH` and the threshold test -/

namespace Main

open big

theorem NewFloat_1e18 :
    NewFloat 1000000000000000000 1 = ⟨53, Form.finite, 7812500000000000, 60⟩ := by decide

theorem NewFloat_threshold :
    NewFloat thresholdWETH.1 thresholdWETH.2 = ⟨53, Form.finite, 4611686018427388, -8⟩ := by
  decide

theorem toRat_1e18 : toRat ⟨53, Form.finite, 7812500000000000, 60⟩ = 1000000000000000000 := by
  have hb : bitLen 7812500000000000 = 53 := by decide
  simp only [toRat, hb]
  norm_num

theorem toRat_threshold :
    toRat ⟨53, Form.finite, 4611686018427388, -8⟩ = 4611686018427388 * (2 : ℚ) ^ (-61 : Int) := by
  have hb : bitLen 4611686018427388 = 53 := by decide
  simp only [toRat, hb]
  norm_num

theorem balanceWETH_zero : balanceWETH 0 = some ⟨64, Form.zero, 0, 0⟩ := by decide

/-- For a positive raw balance whose length fits the exponent range the amount is a
finite value, a rounding of `B / 10^18` to `max(bitLen B, 64)` bits. -/
theorem balanceWETH_pos (B : Nat) (h0 : 0 < B) (hB : (bitLen B : Int) ≤ MaxExp) :
    ∃ d, balanceWETH B = some d ∧ d.form = Form.finite ∧ 0 < d.mant ∧
      Rounds (max (bitLen B) 64) ((B : ℚ) / 1000000000000000000) (toRat d) := by
  have hp : max (max (bitLen B) 64) 53 = max (bitLen B) 64 := by omega
  have hq : balanceWETH B
      = some (uquo (max (bitLen B) 64) ⟨max (bitLen B) 64, Form.finite, B, (bitLen B : Int)⟩
          ⟨53, Form.finite, 7812500000000000, 60⟩) := by
    simp only [balanceWETH, SetInt_pos B h0 hB, NewFloat_1e18, Quo, hp]
  obtain ⟨hform, hround⟩ := uquo_rounds (max (bitLen B) 64)
    ⟨max (bitLen B) 64, Form.finite, B, (bitLen B : Int)⟩
    ⟨53, Form.finite, 7812500000000000, 60⟩ (by omega) rfl rfl h0 (by decide)
    (by simp only [MinExp]; omega) (by simp only [MaxExp] at hB ⊢; omega)
  rw [toRat_1e18] at hround
  have hx : toRat ⟨max (bitLen B) 64, Form.finite, B, (bitLen B : Int)⟩ = (B : ℚ) := by
    simp [toRat]
  rw [hx] at hround
  refine ⟨_, hq, hform, ?_, hround⟩
  obtain ⟨k, M, hR, hM, -, -⟩ := hround
  have hMpos : 0 < M := lt_of_lt_of_le (Nat.two_pow_pos _) hM
  have hpos : 0 < toRat (uquo (max (bitLen B) 64)
      ⟨max (bitLen B) 64, Form.finite, B, (bitLen B : Int)⟩
      ⟨53, Form.finite, 7812500000000000, 60⟩) := by
    rw [hR]
    have : (0 : ℚ) < (M : ℚ) := by exact_mod_cast hMpos
    exact mul_pos this (two_zpow_pos k)
  exact (pos_of_toRat_pos _ hpos).2

/-- For a raw balance too long for the exponent range the amount is infinite. -/
theorem balanceWETH_huge (B : Nat) (hB : MaxExp < (bitLen B : Int)) :
    balanceWETH B = some ⟨max (max (bitLen B) 64) 53, Form.inf, 0, 0⟩ := by
  simp only [balanceWETH, SetInt_huge B hB, NewFloat_1e18, Quo]

theorem bitLen_le_of_uint256 (B : Nat) (hB : B < 2 ^ 256) : (bitLen B : Int) ≤ MaxExp := by
  have hb : bitLen B ≤ 256 := bitLen_le_of_lt_pow hB
  unfold MaxExp
  omega

/-- The test of line 124 on the computed amount is the comparison of the raw balance with
`2 * 10^15`. -/
theorem exceedsThreshold_iff (B : Nat) (d : big.Float)
    (hd : balanceWETH B = some d) : exceedsThreshold d = true ↔ 2000000000000000 < B := by
  rcases Nat.eq_zero_or_pos B with h0 | h0
  · subst h0
    rw [balanceWETH_zero] at hd
    cases hd
    simp only [exceedsThreshold, NewFloat_threshold]
    decide
  · by_cases hB : (bitLen B : Int) ≤ MaxExp
    · obtain ⟨d2, hd2, hform, hmant, hround⟩ := balanceWETH_pos B h0 hB
      rw [hd] at hd2
      cases hd2
      have hp : 0 < max (bitLen B) 64 := by omega
      have h64 : (2 : Nat) ^ 64 ≤ 2 ^ max (bitLen B) 64 :=
        Nat.pow_le_pow_right (by decide) (le_max_right _ _)
      simp only [exceedsThreshold, NewFloat_threshold, decide_eq_true_eq]
      rw [Cmp_pos_iff d _ hform rfl hmant (by decide), toRat_threshold]
      have hz : (2 : ℚ) ^ (-61 : Int) = 1 / 2305843009213693952 := by norm_num [zpow_neg]
      constructor
      · intro hlt
        by_contra hle
        have hle : B ≤ 2000000000000000 := by omega
        have hBq : (B : ℚ) ≤ 2000000000000000 := by exact_mod_cast hle
        have := hround.le_of_le hp 4611686018427388 (-61)
          (lt_of_lt_of_le (by norm_num) h64) (by rw [hz]; push_cast; linarith)
        push_cast at this
        linarith
      · intro hlt
        have hge : 2000000000000001 ≤ B := hlt
        have hBq : (2000000000000001 : ℚ) ≤ (B : ℚ) := by exact_mod_cast hge
        have := hround.ge_of_ge hp 4611686018427389 (-61)
          (lt_of_lt_of_le (by norm_num) h64) (by rw [hz]; push_cast; linarith)
        push_cast at this
        rw [hz] at this ⊢
        linarith
    · have hB2 : MaxExp < (bitLen B : Int) := by omega
      rw [balanceWETH_huge B hB2] at hd
      cases hd
      have hbig : 2000000000000000 < B := by
        have h1 := two_pow_bitLen_le B h0
        have h2 : 64 ≤ bitLen B := by
          unfold MaxExp at hB2
          omega
        have h3 : (2 : Nat) ^ 64 ≤ 2 ^ bitLen B := Nat.pow_le_pow_right (by decide) h2
        have h4 : (2 : Nat) ^ 64 = 18446744073709551616 := by norm_num
        omega
      simp [exceedsThreshold, NewFloat_threshold, Cmp, ord, hbig]

/-! ## The amount text: at most ten significant digits -/

theorem ZeroPadded.of_length {k : Nat} {l : List Char} (h : l.length ≤ k) : ZeroPadded k l :=
  ⟨[], l, [], by simp, by simp, by simp, h⟩

theorem ZeroPadded.of_zeros (k : Nat) {z : List Char} (hz : ∀ c ∈ z, c = '0') :
    ZeroPadded k z :=
  ⟨z, [], [], by simp, hz, by simp, Nat.zero_le _⟩

theorem ZeroPadded.mono {k k2 : Nat} {l : List Char} (h : ZeroPadded k l) (hk : k ≤ k2) :
    ZeroPadded k2 l := by
  obtain ⟨z₁, m, z₂, hl, h1, h2, hm⟩ := h
  exact ⟨z₁, m, z₂, hl, h1, h2, le_trans hm hk⟩

theorem ZeroPadded.zeros_left {k : Nat} {l : List Char} (h : ZeroPadded k l) (z : List Char)
    (hz : ∀ c ∈ z, c = '0') : ZeroPadded k (z ++ l) := by
  obtain ⟨z₁, m, z₂, hl, h1, h2, hm⟩ := h
  refine ⟨z ++ z₁, m, z₂, by simp [hl], ?_, h2, hm⟩
  intro c hc
  rcases List.mem_append.mp hc with hc | hc
  · exact hz c hc
  · exact h1 c hc

theorem ZeroPadded.zeros_right {k : Nat} {l : List Char} (h : ZeroPadded k l) (z : List Char)
    (hz : ∀ c ∈ z, c = '0') : ZeroPadded k (l ++ z) := by
  obtain ⟨z₁, m, z₂, hl, h1, h2, hm⟩ := h
  refine ⟨z₁, m, z₂ ++ z, by simp [hl], h1, ?_, hm⟩
  intro c hc
  rcases List.mem_append.mp hc with hc | hc
  · exact h2 c hc
  · exact hz c hc

theorem ZeroPadded.filter {k : Nat} {l : List Char} (h : ZeroPadded k l) (q : Char → Bool) :
    ZeroPadded k (l.filter q) := by
  obtain ⟨z₁, m, z₂, hl, h1, h2, hm⟩ := h
  refine ⟨z₁.filter q, m.filter q, z₂.filter q, by simp [hl], ?_, ?_, ?_⟩
  · intro c hc
    exact h1 c (List.mem_filter.mp hc).1
  · intro c hc
    exact h2 c (List.mem_filter.mp hc).1
  · exact le_trans (List.length_filter_le q m) hm

theorem ZeroPadded.initial {k : Nat} {l p : List Char} (h : ZeroPadded k l) (hp : p <+: l) :
    ZeroPadded k p := by
  obtain ⟨z₁, m, z₂, hl, h1, h2, hm⟩ := h
  rw [List.prefix_iff_eq_take] at hp
  rw [hp, hl, List.take_append_eq_append_take, List.take_append_eq_append_take]
  refine ⟨_, _, _, rfl, ?_, ?_, ?_⟩
  · intro c hc
    exact h1 c (List.mem_of_mem_take hc)
  · intro c hc
    exact h2 c (List.mem_of_mem_take hc)
  · exact le_trans (List.Sublist.length_le (List.take_sublist _ _)) hm

theorem dropWhile_zeros_append (z l : List Char) (hz : ∀ c ∈ z, c = '0') :
    (z ++ l).dropWhile (fun c => c == '0') = l.dropWhile (fun c => c == '0') := by
  have h : z.dropWhile (fun c => c == '0') = [] := by
    rw [List.dropWhile_eq_nil_iff]
    intro x hx
    rw [hz x hx]
    rfl
  rw [List.dropWhile_append, h]
  rfl

/-- Between zeros means few significant digits. -/
theorem ZeroPadded.length_stripZeros {k : Nat} {l : List Char} (h : ZeroPadded k l) :
    (stripZeros l).length ≤ k := by
  obtain ⟨z₁, m, z₂, hl, h1, h2, hm⟩ := h
  unfold stripZeros
  rw [hl, List.append_assoc, dropWhile_zeros_append z₁ _ h1, List.length_reverse]
  by_cases hall : (m.dropWhile (fun c => c == '0')).isEmpty = true
  · have hz2 : z₂.dropWhile (fun c => c == '0') = [] := by
      rw [List.dropWhile_eq_nil_iff]
      intro x hx
      rw [h2 x hx]
      rfl
    rw [List.dropWhile_append, if_pos hall, hz2]
    simp
  · rw [List.dropWhile_append, if_neg hall, List.reverse_append,
      dropWhile_zeros_append _ _ (fun c hc => h2 c (List.mem_reverse.mp hc))]
    calc ((m.dropWhile (fun c => c == '0')).reverse.dropWhile (fun c => c == '0')).length
        ≤ (m.dropWhile (fun c => c == '0')).reverse.length :=
          List.Sublist.length_le (List.dropWhile_sublist _)
      _ = (m.dropWhile (fun c => c == '0')).length := List.length_reverse _
      _ ≤ m.length := List.Sublist.length_le (List.dropWhile_sublist _)
      _ ≤ k := hm

theorem mem_replicate_zero (n : Nat) : ∀ c ∈ List.replicate n '0', c = '0' :=
  fun _ hc => List.eq_of_mem_replicate hc

/-- The rounded decimal holds at most `n` digits. -/
theorem length_round_le (x : decimal) (n : Nat) (hn : 0 < n) : (x.round n).mant.length ≤ n := by
  unfold decimal.round
  by_cases h : x.mant.length ≤ n
  · rw [if_pos h]
    exact h
  · rw [if_neg h]
    have htake : (x.mant.take n).length ≤ n := List.length_take_le n x.mant
    by_cases hup : shouldRoundUp x n = true
    · rw [if_pos hup]
      unfold decimal.roundUp
      have hkept : ((x.mant.take n).reverse.dropWhile (fun c => decide ('9' ≤ c))).length ≤ n :=
        le_trans (List.Sublist.length_le (List.dropWhile_sublist _))
          (by rw [List.length_reverse]; exact htake)
      cases hk : (x.mant.take n).reverse.dropWhile (fun c => decide ('9' ≤ c)) with
      | nil => simpa using hn
      | cons c cs =>
        rw [hk] at hkept
        simpa using hkept
    · rw [if_neg hup]
      unfold decimal.roundDown trim
      have hm : ((x.mant.take n).reverse.dropWhile (fun c => c == '0')).reverse.length ≤ n := by
        rw [List.length_reverse]
        exact le_trans (List.Sublist.length_le (List.dropWhile_sublist _))
          (by rw [List.length_reverse]; exact htake)
      by_cases he : ((x.mant.take n).reverse.dropWhile (fun c => c == '0')).reverse = []
      · simp only [he, if_true]
        simp
      · simp only [he, if_false]
        exact hm

/-- The digits `fmtF` takes from position `k >= 0` on: digits of the mantissa, then zeros. -/
theorem digits_from_nonneg (d : decimal) (k p : Nat) :
    (List.range p).map (fun (i : Nat) => d.digitAt ((k : Int) + (i : Int)))
      = (d.mant.drop k).take p ++ List.replicate (p - (d.mant.length - k)) '0' := by
  induction p with
  | zero => simp
  | succ p ih =>
    rw [List.range_succ, List.map_append, ih, List.map_singleton, List.take_succ,
      List.getElem?_drop]
    by_cases h : k + p < d.mant.length
    · have h1 : d.digitAt ((k : Int) + (p : Int)) = d.mant[k + p] := by
        unfold decimal.digitAt
        have hc : 0 ≤ (k : Int) + (p : Int) ∧ (k : Int) + (p : Int) < (d.mant.length : Int) := by
          omega
        rw [if_pos hc]
        have ht : ((k : Int) + (p : Int)).toNat = k + p := by omega
        rw [ht, List.getD_eq_getElem?_getD, List.getElem?_eq_getElem h]
        rfl
      have h2 : p - (d.mant.length - k) = 0 := by omega
      have h3 : p + 1 - (d.mant.length - k) = 0 := by omega
      rw [h1, h2, h3, List.getElem?_eq_getElem h]
      simp
    · have h1 : d.digitAt ((k : Int) + (p : Int)) = '0' := by
        unfold decimal.digitAt
        have hc : ¬ (0 ≤ (k : Int) + (p : Int) ∧ (k : Int) + (p : Int) < (d.mant.length : Int)) := by
          omega
        rw [if_neg hc]
      have h3 : p + 1 - (d.mant.length - k) = (p - (d.mant.length - k)) + 1 := by omega
      rw [h1, h3, List.replicate_succ', List.getElem?_eq_none (by omega)]
      simp

/-- The digits `fmtF` takes from a position `-j <= 0` on: zeros, digits of the mantissa,
then zeros. -/
theorem digits_from_neg (d : decimal) (j p : Nat) :
    (List.range p).map (fun (i : Nat) => d.digitAt (-(j : Int) + (i : Int)))
      = List.replicate (min p j) '0' ++ d.mant.take (p - j)
        ++ List.replicate (p - j - d.mant.length) '0' := by
  induction p with
  | zero => simp
  | succ p ih =>
    rw [List.range_succ, List.map_append, ih, List.map_singleton]
    by_cases hpj : p < j
    · have h1 : d.digitAt (-(j : Int) + (p : Int)) = '0' := by
        unfold decimal.digitAt
        have hc : ¬ (0 ≤ -(j : Int) + (p : Int) ∧ -(j : Int) + (p : Int) < (d.mant.length : Int)) := by
          omega
        rw [if_neg hc]
      have e1 : min p j = p := by omega
      have e2 : min (p + 1) j = p + 1 := by omega
      have e3 : p - j = 0 := by omega
      have e4 : p + 1 - j = 0 := by omega
      rw [h1, e1, e2, e3, e4, List.replicate_succ']
      simp
    · have e1 : min p j = j := by omega
      have e2 : min (p + 1) j = j := by omega
      have e4 : p + 1 - j = (p - j) + 1 := by omega
      rw [e1, e2, e4, List.take_succ]
      by_cases h : p - j < d.mant.length
      · have h1 : d.digitAt (-(j : Int) + (p : Int)) = d.mant[p - j] := by
          unfold decimal.digitAt
          have hc : 0 ≤ -(j : Int) + (p : Int) ∧ -(j : Int) + (p : Int) < (d.mant.length : Int) := by
            omega
          rw [if_pos hc]
          have ht : (-(j : Int) + (p : Int)).toNat = p - j := by omega
          rw [ht, List.getD_eq_getElem?_getD, List.getElem?_eq_getElem h]
          rfl
        have h2 : p - j - d.mant.length = 0 := by omega
        have h3 : p - j + 1 - d.mant.length = 0 := by omega
        rw [h1, h2, h3, List.getElem?_eq_getElem h]
        simp
      · have h1 : d.digitAt (-(j : Int) + (p : Int)) = '0' := by
          unfold decimal.digitAt
          have hc : ¬ (0 ≤ -(j : Int) + (p : Int)
              ∧ -(j : Int) + (p : Int) < (d.mant.length : Int)) := by
            omega
          rw [if_neg hc]
        have h3 : p - j + 1 - d.mant.length = (p - j - d.mant.length) + 1 := by omega
        rw [h1, h3, List.replicate_succ', List.getElem?_eq_none (by omega)]
        simp

theorem isDigit_dot : Char.isDigit '.' = false := by decide

/-- The digits of the `%f` form are the digits of the mantissa between zeros. -/
theorem zeroPadded_fmtF (p : Nat) (d : decimal) :
    ZeroPadded d.mant.length ((fmtF p d).filter Char.isDigit) := by
  have hfilter : (fmtF p d).filter Char.isDigit
      = ((if 0 < d.exp then
            d.mant.take (min d.mant.length d.exp.toNat)
              ++ List.replicate (d.exp.toNat - min d.mant.length d.exp.toNat) '0'
          else ['0'])
          ++ (List.range p).map (fun (i : Nat) => d.digitAt (d.exp + (i : Int)))).filter
            Char.isDigit := by
    unfold fmtF
    by_cases hp : 0 < p
    · simp only [hp, if_true, List.filter_append, List.filter_cons, isDigit_dot,
        Bool.false_eq_true, if_false]
    · have hp0 : p = 0 := by omega
      subst hp0
      simp
  rw [hfilter]
  apply ZeroPadded.filter
  by_cases hexp : 0 < d.exp
  · rw [if_pos hexp]
    obtain ⟨e, he⟩ : ∃ e : Nat, d.exp = (e : Int) := ⟨d.exp.toNat, by omega⟩
    rw [he, digits_from_nonneg d e p]
    simp only [Int.toNat_ofNat]
    by_cases hle : e ≤ d.mant.length
    · have hm : min d.mant.length e = e := by omega
      rw [hm, Nat.sub_self]
      simp only [List.replicate_zero, List.append_nil]
      rw [← List.append_assoc]
      apply ZeroPadded.zeros_right _ _ (mem_replicate_zero _)
      apply ZeroPadded.of_length
      rw [List.length_append, List.length_take, List.length_take, List.length_drop]
      omega
    · have hm : min d.mant.length e = d.mant.length := by omega
      have hdrop : d.mant.drop e = [] := List.drop_of_length_le (by omega)
      rw [hm, List.take_length, hdrop]
      simp only [List.take_nil, List.nil_append]
      apply ZeroPadded.zeros_right _ _ (mem_replicate_zero _)
      apply ZeroPadded.zeros_right _ _ (mem_replicate_zero _)
      exact ZeroPadded.of_length (le_refl _)
  · rw [if_neg hexp]
    obtain ⟨j, hj⟩ : ∃ j : Nat, d.exp = -(j : Int) := ⟨(-d.exp).toNat, by omega⟩
    rw [hj, digits_from_neg d j p]
    apply ZeroPadded.zeros_left _ ['0'] (by simp)
    apply ZeroPadded.zeros_right _ _ (mem_replicate_zero _)
    apply ZeroPadded.zeros_left _ _ (mem_replicate_zero _)
    apply ZeroPadded.of_length
    exact List.Sublist.length_le (List.take_sublist _ _)

/-- The `%e` form is its mantissa part, then `e` and the exponent; the digits of the
mantissa part are the digits of the mantissa between zeros. -/
theorem fmtE_eq (prec : Int) (d : decimal) :
    ∃ x y, fmtE prec d = x ++ 'e' :: y ∧ ZeroPadded d.mant.length (x.filter Char.isDigit) := by
  unfold fmtE
  simp only []
  refine ⟨d.mant.headD '0' :: (if 0 < prec then
      '.' :: ((d.mant.take (min d.mant.length (prec.toNat + 1))).drop 1
        ++ List.replicate (prec.toNat + 1 - max (min d.mant.length (prec.toNat + 1)) 1) '0')
      else []), _, rfl, ?_⟩
  by_cases hp : 0 < prec
  · rw [if_pos hp]
    have hf : (d.mant.headD '0' :: '.' :: ((d.mant.take (min d.mant.length (prec.toNat + 1))).drop 1
          ++ List.replicate (prec.toNat + 1 - max (min d.mant.length (prec.toNat + 1)) 1)
            '0')).filter Char.isDigit
        = (d.mant.headD '0' :: ((d.mant.take (min d.mant.length (prec.toNat + 1))).drop 1
          ++ List.replicate (prec.toNat + 1 - max (min d.mant.length (prec.toNat + 1)) 1)
            '0')).filter Char.isDigit := by
      simp only [List.filter_cons, isDigit_dot, Bool.false_eq_true, if_false]
    rw [hf]
    apply ZeroPadded.filter
    cases hm : d.mant with
    | nil =>
      simp only [List.headD_nil, List.length_nil, List.take_nil, List.drop_nil, List.nil_append]
      apply ZeroPadded.zeros_left _ ['0'] (by simp)
      exact ZeroPadded.of_zeros _ (mem_replicate_zero _)
    | cons h t =>
      have e1 : min (h :: t).length (prec.toNat + 1) = min t.length prec.toNat + 1 := by
        simp only [List.length_cons]
        omega
      rw [e1, List.take_succ_cons]
      simp only [List.headD_cons, List.drop_succ_cons, List.drop_zero]
      rw [← List.cons_append]
      apply ZeroPadded.zeros_right _ _ (mem_replicate_zero _)
      apply ZeroPadded.of_length
      simp only [List.length_cons, List.length_take]
      omega
  · rw [if_neg hp]
    apply ZeroPadded.filter
    cases hm : d.mant with
    | nil =>
      simp only [List.headD_nil, List.length_nil]
      exact ZeroPadded.of_zeros _ (by simp)
    | cons h t =>
      apply ZeroPadded.of_length
      simp

theorem takeWhile_initial (p : Char → Bool) (l : List Char) : l.takeWhile p <+: l := by
  exact List.takeWhile_prefix p

theorem takeWhile_prefix_of_stop (p : Char → Bool) (x y : List Char) (a : Char)
    (ha : p a = false) : (x ++ a :: y).takeWhile p <+: x := by
  rw [List.takeWhile_append]
  by_cases h : (x.takeWhile p).length = x.length
  · rw [if_pos h, List.takeWhile_cons, ha]
    simp
  · rw [if_neg h]
    exact takeWhile_initial p x

theorem significantDigits_le_of_initial (l t : List Char) (k : Nat)
    (hpre : l.takeWhile (fun c => c != 'e') <+: t)
    (hz : ZeroPadded k (t.filter Char.isDigit)) :
    (significantDigits (String.mk l)).length ≤ k := by
  unfold significantDigits
  exact (ZeroPadded.initial hz (List.IsPrefix.filter _ hpre)).length_stripZeros

theorem significantDigits_ite_le (c : Prop) [Decidable c] (a b : String) (k : Nat)
    (ha : (significantDigits a).length ≤ k) (hb : (significantDigits b).length ≤ k) :
    (significantDigits (if c then a else b)).length ≤ k := by
  split
  · exact ha
  · exact hb

/-- The text `x.Text('g', 10)` of a non-negative value shows at most 10 significant
digits. -/
theorem significantDigits_Text_le (x : big.Float) :
    (significantDigits (x.Text 10)).length ≤ 10 := by
  unfold Float.Text
  split
  · decide
  · simp only []
    generalize hd : (if x.form = Form.finite then
        decimal.init x.mant (x.exp - (bitLen x.mant : Int))
      else (⟨[], 0⟩ : decimal)).round 10 = d
    have hlen : d.mant.length ≤ 10 := by
      rw [← hd]
      exact length_round_le _ 10 (by decide)
    apply significantDigits_ite_le
    · obtain ⟨xs, ys, he, hz⟩ := fmtE_eq ((min 10 d.mant.length : Nat) - 1 : Int) d
      rw [he]
      exact le_trans
        (significantDigits_le_of_initial _ xs _
          (takeWhile_prefix_of_stop (fun c => c != 'e') xs ys 'e' (by decide)) hz)
        hlen
    · exact le_trans
        (significantDigits_le_of_initial _ _ _ (takeWhile_initial _ _) (zeroPadded_fmtF _ d))
        hlen

theorem significantDigits_amountText_le (B : Nat) :
    (significantDigits (amountText B)).length ≤ 10 := by
  unfold amountText
  cases balanceWETH B with
  | none => decide
  | some amount => exact significantDigits_Text_le amount

/-! ## The threshold decision and the precision of the amount -/

theorem balanceWETH_some (B : Nat) (hB : B < 2 ^ 256) :
    ∃ d, balanceWETH B = some d ∧ d.form ≠ Form.inf ∧ (d.form = Form.zero → B = 0) := by
  rcases Nat.eq_zero_or_pos B with h0 | h0
  · subst h0
    exact ⟨_, balanceWETH_zero, by decide, fun _ => rfl⟩
  · obtain ⟨d, hd, hform, -, -⟩ := balanceWETH_pos B h0 (bitLen_le_of_uint256 B hB)
    refine ⟨d, hd, ?_, ?_⟩
    · rw [hform]; decide
    · rw [hform]; intro h; cases h

theorem decimal_gt_iff (B : Nat) :
    (2 : ℚ) / 1000 < decimalBalance B ↔ 2000000000000000 < B := by
  unfold decimalBalance
  rw [div_lt_div_iff₀ (by norm_num) (by norm_num)]
  constructor
  · intro h
    have : (2000000000000000 : ℚ) < (B : ℚ) := by linarith
    exact_mod_cast this
  · intro h
    have : (2000000000000000 : ℚ) < (B : ℚ) := by exact_mod_cast h
    linarith

theorem notifications_checkAddress (B : Nat) (d : big.Float) (hd : balanceWETH B = some d)
    (resp : SendOutcome) (contractAddress : String) (settings : Settings) (i n : Nat)
    (addr : String) :
    notifications (checkAddress (CallOutcome.balance B) resp contractAddress settings i n addr).events
      = if exceedsThreshold d then [alertMessage addr (d.Text 10)] else [] := by
  simp only [checkAddress, hd, notifications]
  by_cases h : exceedsThreshold d = true
  · simp [h, sendTelegramMessage, Event.notification?]
    cases resp with
    | networkError => simp [Event.notification?]
    | status code => by_cases hc : code = 200 <;> simp [hc, Event.notification?]
  · simp [h, Event.notification?]

/-- C1: for a raw balance `B <= 2^256 - 1` that was read and decoded, the loop body of
`checkBalances` requests a notification for the address exactly when `B > 2 * 10^15`, which
is exactly when the decimal balance `B / 10^18` is strictly greater than `0.002`; it then
requests exactly one. -/
theorem threshold_notification_iff (B : Nat) (hB : B ≤ 2 ^ 256 - 1) (resp : SendOutcome)
    (contractAddress : String) (settings : Settings) (i n : Nat) (addr : String) :
    ((notifications
        (checkAddress (CallOutcome.balance B) resp contractAddress settings i n addr).events).length
      = if 2000000000000000 < B then 1 else 0) ∧
    (2000000000000000 < B ↔ (2 : ℚ) / 1000 < decimalBalance B) := by
  have hB2 : B < 2 ^ 256 := by
    have := Nat.two_pow_pos 256
    omega
  obtain ⟨d, hd, -, -⟩ := balanceWETH_some B hB2
  have hiff := exceedsThreshold_iff B d hd
  constructor
  · rw [notifications_checkAddress B d hd]
    by_cases h : 2000000000000000 < B
    · rw [if_pos (hiff.mpr h), if_pos h]
      rfl
    · have : ¬ (exceedsThreshold d = true) := fun hc => h (hiff.mp hc)
      rw [if_neg this, if_neg h]
      rfl
  · exact (decimal_gt_iff B).symm

/-- C1, at the boundary: a raw balance of exactly `0.002 * 10^18` requests no
notification, one of `0.0020000001 * 10^18` requests one. -/
theorem threshold_notification_iff_witness :
    (2000000000000000 ≤ 2 ^ 256 - 1 ∧
      (notifications (checkAddress (CallOutcome.balance 2000000000000000)
        (SendOutcome.status 200) "0xC" ⟨"u", "t", 5, "0xC", "f"⟩ 0 1 "a1").events).length = 0) ∧
    (2000000100000000 ≤ 2 ^ 256 - 1 ∧
      (notifications (checkAddress (CallOutcome.balance 2000000100000000)
        (SendOutcome.status 200) "0xC" ⟨"u", "t", 5, "0xC", "f"⟩ 0 1 "a1").events).length = 1) :=
  ⟨⟨by decide, (threshold_notification_iff 2000000000000000 (by decide)
      (SendOutcome.status 200) "0xC" ⟨"u", "t", 5, "0xC", "f"⟩ 0 1 "a1").1⟩,
   ⟨by decide, (threshold_notification_iff 2000000100000000 (by decide)
      (SendOutcome.status 200) "0xC" ⟨"u", "t", 5, "0xC", "f"⟩ 0 1 "a1").1⟩⟩

/-- C4: for a raw balance `B <= 2^256 - 1` the amount computed at lines 119-120 is never
infinite, is zero only for `B = 0`, and converting it back (times `10^18`, rounded to the
nearest integer) gives `B` up to one raw unit. -/
theorem amount_roundtrip (B : Nat) (hB : B ≤ 2 ^ 256 - 1) :
    ∃ d, balanceWETH B = some d ∧ d.form ≠ Form.inf ∧ (d.form = Form.zero → B = 0) ∧
      |toRat d * 1000000000000000000 - (B : ℚ)| < 1 ∧
      |round (toRat d * 1000000000000000000) - (B : Int)| ≤ 1 := by
  have hB2 : B < 2 ^ 256 := by
    have := Nat.two_pow_pos 256
    omega
  obtain ⟨d, hd, hinf, hzero⟩ := balanceWETH_some B hB2
  have hclose : |toRat d * 1000000000000000000 - (B : ℚ)| < 1 := by
    rcases Nat.eq_zero_or_pos B with h0 | h0
    · subst h0
      rw [balanceWETH_zero] at hd
      cases hd
      simp [toRat]
    · obtain ⟨d2, hd2, -, -, hround⟩ := balanceWETH_pos B h0 (bitLen_le_of_uint256 B hB2)
      rw [hd] at hd2
      cases hd2
      have hp : 0 < max (bitLen B) 64 := by omega
      have herr := hround.abs_sub_le hp
      have hlt : B < 2 ^ max (bitLen B) 64 :=
        lt_of_lt_of_le (lt_two_pow_bitLen B) (Nat.pow_le_pow_right (by decide) (le_max_left _ _))
      have hltq : (B : ℚ) < (2 : ℚ) ^ max (bitLen B) 64 := by exact_mod_cast hlt
      have hP : (0 : ℚ) < (2 : ℚ) ^ max (bitLen B) 64 := by positivity
      have habs : |toRat d * 1000000000000000000 - (B : ℚ)|
          = |(B : ℚ) / 1000000000000000000 - toRat d| * 1000000000000000000 := by
        rw [abs_sub_comm]
        have : (B : ℚ) - toRat d * 1000000000000000000
            = ((B : ℚ) / 1000000000000000000 - toRat d) * 1000000000000000000 := by
          field_simp
          ring
        rw [this, abs_mul]
        norm_num
      rw [habs]
      have h1 : |(B : ℚ) / 1000000000000000000 - toRat d| * 1000000000000000000
            * (2 : ℚ) ^ max (bitLen B) 64 ≤ (B : ℚ) := by
        have := mul_le_mul_of_nonneg_right herr (show (0 : ℚ) ≤ 1000000000000000000 by norm_num)
        have e : (B : ℚ) / 1000000000000000000 * 1000000000000000000 = (B : ℚ) := by field_simp
        rw [e] at this
        linarith
      by_contra hge
      push_neg at hge
      have := mul_le_mul_of_nonneg_right hge (le_of_lt hP)
      linarith
  refine ⟨d, hd, hinf, hzero, hclose, ?_⟩
  have hr := abs_sub_round (toRat d * 1000000000000000000)
  have h3 : |((round (toRat d * 1000000000000000000) : Int) : ℚ) - ((B : Int) : ℚ)| < 2 := by
    have e : ((round (toRat d * 1000000000000000000) : Int) : ℚ) - ((B : Int) : ℚ)
        = (toRat d * 1000000000000000000 - (B : ℚ))
          - (toRat d * 1000000000000000000 - round (toRat d * 1000000000000000000)) := by
      push_cast
      ring
    rw [e]
    calc |(toRat d * 1000000000000000000 - (B : ℚ))
          - (toRat d * 1000000000000000000 - round (toRat d * 1000000000000000000))|
        ≤ |toRat d * 1000000000000000000 - (B : ℚ)|
          + |toRat d * 1000000000000000000 - round (toRat d * 1000000000000000000)| :=
          abs_sub _ _
      _ < 2 := by linarith
  have h4 : |round (toRat d * 1000000000000000000) - (B : Int)| < 2 := by
    have : ((|round (toRat d * 1000000000000000000) - (B : Int)| : Int) : ℚ) < ((2 : Int) : ℚ) := by
      push_cast
      exact h3
    exact_mod_cast this
  omega

/-- C4, at the largest raw balance. -/
theorem amount_roundtrip_witness :
    2 ^ 256 - 1 ≤ 2 ^ 256 - 1 ∧
    ∃ d, balanceWETH (2 ^ 256 - 1) = some d ∧ d.form ≠ Form.inf ∧
      (d.form = Form.zero → 2 ^ 256 - 1 = 0) ∧
      |toRat d * 1000000000000000000 - ((2 ^ 256 - 1 : Nat) : ℚ)| < 1 ∧
      |round (toRat d * 1000000000000000000) - ((2 ^ 256 - 1 : Nat) : Int)| ≤ 1 :=
  ⟨le_refl _, amount_roundtrip (2 ^ 256 - 1) (le_refl _)⟩

/-! ## The sweep visits every address -/

theorem balanceWETH_isSome (B : Nat) : ∃ d, balanceWETH B = some d := by
  simp only [balanceWETH, NewFloat_1e18, Quo]
  cases (SetInt B).form <;> exact ⟨_, rfl⟩

theorem checkAddress_not_exited (call : CallOutcome) (resp : SendOutcome)
    (contractAddress : String) (settings : Settings) (i n : Nat) (addr : String) :
    (checkAddress call resp contractAddress settings i n addr).exited = false := by
  cases call with
  | balance B =>
    obtain ⟨d, hd⟩ := balanceWETH_isSome B
    simp only [checkAddress, hd]
  | _ => rfl

theorem sweepFrom_cons (reader : Nat → String → CallOutcome)
    (notifier : Nat → String → SendOutcome) (contractAddress : String) (settings : Settings)
    (n i : Nat) (addr : String) (rest : List String) :
    sweepFrom reader notifier contractAddress settings n i (addr :: rest)
      = ⟨(checkAddress (reader i addr) (notifier i addr) contractAddress settings i n addr).events
          ++ (sweepFrom reader notifier contractAddress settings n (i + 1) rest).events,
         (sweepFrom reader notifier contractAddress settings n (i + 1) rest).exited⟩ := by
  simp only [sweepFrom, checkAddress_not_exited, Bool.false_eq_true, if_false]

theorem sweepFrom_not_exited (reader : Nat → String → CallOutcome)
    (notifier : Nat → String → SendOutcome) (contractAddress : String) (settings : Settings)
    (n : Nat) (addresses : List String) :
    ∀ i, (sweepFrom reader notifier contractAddress settings n i addresses).exited = false := by
  induction addresses with
  | nil => intro i; rfl
  | cons addr rest ih => intro i; rw [sweepFrom_cons]; exact ih (i + 1)

theorem checked_checkAddress (call : CallOutcome) (resp : SendOutcome)
    (contractAddress : String) (settings : Settings) (i n : Nat) (addr : String) :
    checkedAddresses (checkAddress call resp contractAddress settings i n addr).events
      = [addr] := by
  cases call with
  | balance B =>
    obtain ⟨d, hd⟩ := balanceWETH_isSome B
    simp only [checkAddress, hd, checkedAddresses]
    by_cases h : exceedsThreshold d = true
    · cases resp with
      | networkError => simp [h, sendTelegramMessage, Event.checked?]
      | status code =>
        by_cases hc : code = 200 <;> simp [h, hc, sendTelegramMessage, Event.checked?]
    · simp [h, Event.checked?]
  | _ => rfl

theorem called_checkAddress (call : CallOutcome) (resp : SendOutcome)
    (contractAddress : String) (settings : Settings) (i n : Nat) (addr : String) :
    contractCalls (checkAddress call resp contractAddress settings i n addr).events
      = if call ≠ CallOutcome.packError then [addr] else [] := by
  cases call with
  | balance B =>
    obtain ⟨d, hd⟩ := balanceWETH_isSome B
    simp only [checkAddress, hd, contractCalls]
    by_cases h : exceedsThreshold d = true
    · cases resp with
      | networkError => simp [h, sendTelegramMessage, Event.called?]
      | status code =>
        by_cases hc : code = 200 <;> simp [h, hc, sendTelegramMessage, Event.called?]
    · simp [h, Event.called?]
  | _ => rfl

theorem checkedAddresses_sweepFrom (reader : Nat → String → CallOutcome)
    (notifier : Nat → String → SendOutcome) (contractAddress : String) (settings : Settings)
    (n : Nat) (addresses : List String) :
    ∀ i, checkedAddresses
        (sweepFrom reader notifier contractAddress settings n i addresses).events = addresses := by
  induction addresses with
  | nil => intro i; rfl
  | cons addr rest ih =>
    intro i
    rw [sweepFrom_cons]
    have h1 := checked_checkAddress (reader i addr) (notifier i addr) contractAddress settings
      i n addr
    have h2 := ih (i + 1)
    simp only [checkedAddresses, List.filterMap_append] at h1 h2 ⊢
    rw [h1, h2]
    rfl

theorem contractCalls_sweepFrom (reader : Nat → String → CallOutcome)
    (notifier : Nat → String → SendOutcome) (contractAddress : String) (settings : Settings)
    (n : Nat) (addresses : List String) :
    ∀ i, contractCalls
        (sweepFrom reader notifier contractAddress settings n i addresses).events
      = ((List.enumFrom i addresses).filter (packs reader)).map Prod.snd := by
  induction addresses with
  | nil => intro i; rfl
  | cons addr rest ih =>
    intro i
    rw [sweepFrom_cons]
    have h1 := called_checkAddress (reader i addr) (notifier i addr) contractAddress settings
      i n addr
    have h2 := ih (i + 1)
    simp only [contractCalls, List.filterMap_append] at h1 h2 ⊢
    rw [h1, h2, List.enumFrom_cons, List.filter_cons]
    by_cases hp : reader i addr = CallOutcome.packError
    · simp [packs, hp]
    · simp [packs, hp]

/-- C2: one run of `checkBalances` starts the check of every address of the list exactly
once and in list order, whatever the chain reader does at each address, makes the
contract call for each address whose call data could be packed, and returns. -/
theorem sweep_visits_all (reader : Nat → String → CallOutcome)
    (notifier : Nat → String → SendOutcome) (contractAddress : String)
    (addresses : List String) (settings : Settings) :
    checkedAddresses (checkBalances reader notifier contractAddress addresses settings).events
      = addresses ∧
    contractCalls (checkBalances reader notifier contractAddress addresses settings).events
      = (addresses.enum.filter (packs reader)).map Prod.snd ∧
    (checkBalances reader notifier contractAddress addresses settings).exited = false :=
  ⟨checkedAddresses_sweepFrom _ _ _ _ _ _ 0, contractCalls_sweepFrom _ _ _ _ _ _ 0,
    sweepFrom_not_exited _ _ _ _ _ _ 0⟩

/-- C2, on the scenario of the specification: the call for the first address fails with a
network error, the second address is still checked and evaluated, and the sweep returns. -/
theorem sweep_visits_all_witness :
    checkedAddresses (checkBalances
        (fun i _ => if i = 0 then CallOutcome.callError else CallOutcome.balance 3000000000000000000)
        (fun _ _ => SendOutcome.status 200) "0xC" ["a1", "a2"] ⟨"u", "t", 5, "0xC", "f"⟩).events
      = ["a1", "a2"] ∧
    (checkBalances
        (fun i _ => if i = 0 then CallOutcome.callError else CallOutcome.balance 3000000000000000000)
        (fun _ _ => SendOutcome.status 200) "0xC" ["a1", "a2"] ⟨"u", "t", 5, "0xC", "f"⟩)
      = ⟨[Event.logChecking 1 2 "a1", Event.callContract "0xC" "a1", Event.logCallFailed "a1",
          Event.logChecking 2 2 "a2", Event.callContract "0xC" "a2", Event.logRaw "a2",
          Event.logBalance "a2" "3",
          Event.telegramGet "t" 5 "Alamat: a2, Saldo WETH: 3 WETH", Event.logSendOk,
          Event.sleep 1], false⟩ :=
  ⟨(sweep_visits_all _ _ _ _ _).1, by decide⟩

/-! ## Notifications, the notifier, the delay, the amount text -/

theorem notifications_checkAddress_expected (reader : Nat → String → CallOutcome)
    (resp : SendOutcome) (contractAddress : String) (settings : Settings) (i n : Nat)
    (addr : String) :
    notifications (checkAddress (reader i addr) resp contractAddress settings i n addr).events
      = (expectedAlert reader (i, addr)).toList := by
  cases hc : reader i addr with
  | balance B =>
    obtain ⟨d, hd⟩ := balanceWETH_isSome B
    rw [notifications_checkAddress B d hd]
    have hiff := exceedsThreshold_iff B d hd
    simp only [expectedAlert, hc, amountText, hd]
    by_cases h : 2000000000000000 < B
    · rw [if_pos (hiff.mpr h), if_pos ((decimal_gt_iff B).mpr h)]
      rfl
    · have h1 : ¬ (exceedsThreshold d = true) := fun hx => h (hiff.mp hx)
      have h2 : ¬ ((2 : ℚ) / 1000 < decimalBalance B) := fun hx => h ((decimal_gt_iff B).mp hx)
      rw [if_neg h1, if_neg h2]
      rfl
  | packError => simp [expectedAlert, hc, checkAddress, notifications, Event.notification?]
  | callError => simp [expectedAlert, hc, checkAddress, notifications, Event.notification?]
  | unpackError => simp [expectedAlert, hc, checkAddress, notifications, Event.notification?]

/-- C3: the notifications requested by one run of `checkBalances` are, in list order and
one per list occurrence, the alerts `Alamat: <address>, Saldo WETH: <decimal> WETH` of the
addresses whose call and decoding succeed with a decimal balance strictly above `0.002`,
with the address as it stands in the list and the amount as `balanceWETH.String()` shows
it; an address whose call or decoding fails, or whose balance is at or below the
threshold, gets none. -/
theorem sweep_notifications (reader : Nat → String → CallOutcome)
    (notifier : Nat → String → SendOutcome) (contractAddress : String)
    (addresses : List String) (settings : Settings) :
    notifications (checkBalances reader notifier contractAddress addresses settings).events
      = addresses.enum.filterMap (expectedAlert reader) := by
  unfold checkBalances List.enum
  generalize addresses.length = n
  generalize 0 = i
  induction addresses generalizing i with
  | nil => rfl
  | cons addr rest ih =>
    rw [sweepFrom_cons]
    have h1 := notifications_checkAddress_expected reader (notifier i addr)
      contractAddress settings i n addr
    simp only [notifications, List.filterMap_append] at ih h1 ⊢
    rw [ih (i + 1), h1, List.enumFrom_cons, List.filterMap_cons]
    cases expectedAlert reader (i, addr) <;> rfl

/-- C3, on the scenario of the specification: raw balances `3 * 10^18` and `10^15` for the
list `[a1, a2]` give exactly one notification, for `a1`, with the amount `3`. -/
theorem sweep_notifications_witness :
    (["a1", "a2"].enum.filterMap (expectedAlert (fun (i : Nat) (_ : String) =>
          if i = 0 then CallOutcome.balance 3000000000000000000
          else CallOutcome.balance 1000000000000000)))
      = ["Alamat: a1, Saldo WETH: 3 WETH"] ∧
    notifications (checkBalances (fun (i : Nat) (_ : String) =>
          if i = 0 then CallOutcome.balance 3000000000000000000
          else CallOutcome.balance 1000000000000000)
        (fun _ _ => SendOutcome.status 200) "0xC" ["a1", "a2"] ⟨"u", "t", 5, "0xC", "f"⟩).events
      = ["Alamat: a1, Saldo WETH: 3 WETH"] := by
  have h : notifications (checkBalances (fun (i : Nat) (_ : String) =>
          if i = 0 then CallOutcome.balance 3000000000000000000
          else CallOutcome.balance 1000000000000000)
        (fun _ _ => SendOutcome.status 200) "0xC" ["a1", "a2"] ⟨"u", "t", 5, "0xC", "f"⟩).events
      = ["Alamat: a1, Saldo WETH: 3 WETH"] := by decide
  refine ⟨?_, h⟩
  rw [← sweep_notifications _ (fun _ _ => SendOutcome.status 200) "0xC" ["a1", "a2"]
    ⟨"u", "t", 5, "0xC", "f"⟩]
  exact h

theorem withoutSendLogs_checkAddress (call : CallOutcome) (resp : SendOutcome)
    (contractAddress : String) (settings : Settings) (i n : Nat) (addr : String) :
    withoutSendLogs (checkAddress call resp contractAddress settings i n addr).events
      = withoutSendLogs (checkAddress call (SendOutcome.status 200) contractAddress settings
          i n addr).events := by
  cases call with
  | balance B =>
    obtain ⟨d, hd⟩ := balanceWETH_isSome B
    simp only [checkAddress, hd, withoutSendLogs]
    by_cases h : exceedsThreshold d = true
    · cases resp with
      | networkError => simp [h, sendTelegramMessage, Event.isSendLog]
      | status code =>
        by_cases hc : code = 200 <;> simp [h, hc, sendTelegramMessage, Event.isSendLog]
    · simp [h]
  | _ => rfl

theorem notifications_checkAddress_resp (call : CallOutcome) (resp : SendOutcome)
    (contractAddress : String) (settings : Settings) (i n : Nat) (addr : String) :
    notifications (checkAddress call resp contractAddress settings i n addr).events
      = notifications (checkAddress call (SendOutcome.status 200) contractAddress settings
          i n addr).events := by
  cases call with
  | balance B =>
    obtain ⟨d, hd⟩ := balanceWETH_isSome B
    rw [notifications_checkAddress B d hd, notifications_checkAddress B d hd]
  | _ => rfl

theorem sweepFrom_resp (reader : Nat → String → CallOutcome)
    (notifier : Nat → String → SendOutcome) (contractAddress : String) (settings : Settings)
    (n : Nat) (addresses : List String) :
    ∀ i, withoutSendLogs (sweepFrom reader notifier contractAddress settings n i addresses).events
        = withoutSendLogs (sweepFrom reader (fun _ _ => SendOutcome.status 200) contractAddress
            settings n i addresses).events ∧
      notifications (sweepFrom reader notifier contractAddress settings n i addresses).events
        = notifications (sweepFrom reader (fun _ _ => SendOutcome.status 200) contractAddress
            settings n i addresses).events := by
  induction addresses with
  | nil => intro i; exact ⟨rfl, rfl⟩
  | cons addr rest ih =>
    intro i
    obtain ⟨ih1, ih2⟩ := ih (i + 1)
    have h1 := withoutSendLogs_checkAddress (reader i addr) (notifier i addr) contractAddress
      settings i n addr
    have h2 := notifications_checkAddress_resp (reader i addr) (notifier i addr) contractAddress
      settings i n addr
    rw [sweepFrom_cons, sweepFrom_cons]
    simp only [withoutSendLogs, notifications, List.filter_append, List.filterMap_append]
      at ih1 ih2 h1 h2 ⊢
    rw [ih1, ih2, h1, h2]
    exact ⟨rfl, rfl⟩

/-- C8: two runs of `checkBalances` that differ only in how the notifier's requests end
produce the same trace up to the log lines of `sendTelegramMessage`: the same addresses
checked, the same contract calls and the same notification requests with the same texts,
in the same order, and both return; `sendTelegramMessage` itself does its one request and
logs, whatever the response. -/
theorem notifier_outcome_irrelevant (reader : Nat → String → CallOutcome)
    (notifier₁ notifier₂ : Nat → String → SendOutcome) (contractAddress : String)
    (addresses : List String) (settings : Settings) :
    withoutSendLogs (checkBalances reader notifier₁ contractAddress addresses settings).events
      = withoutSendLogs (checkBalances reader notifier₂ contractAddress addresses settings).events ∧
    checkedAddresses (checkBalances reader notifier₁ contractAddress addresses settings).events
      = checkedAddresses (checkBalances reader notifier₂ contractAddress addresses settings).events ∧
    contractCalls (checkBalances reader notifier₁ contractAddress addresses settings).events
      = contractCalls (checkBalances reader notifier₂ contractAddress addresses settings).events ∧
    notifications (checkBalances reader notifier₁ contractAddress addresses settings).events
      = notifications (checkBalances reader notifier₂ contractAddress addresses settings).events ∧
    (checkBalances reader notifier₁ contractAddress addresses settings).exited = false ∧
    (checkBalances reader notifier₂ contractAddress addresses settings).exited = false ∧
    (∀ (resp : SendOutcome) (botToken : String) (chatID : Int) (message : String),
      withoutSendLogs (sendTelegramMessage resp botToken chatID message)
        = [Event.telegramGet botToken chatID message]) := by
  have h1 := sweepFrom_resp reader notifier₁ contractAddress settings addresses.length
    addresses 0
  have h2 := sweepFrom_resp reader notifier₂ contractAddress settings addresses.length
    addresses 0
  unfold checkBalances
  refine ⟨?_, ?_, ?_, ?_, sweepFrom_not_exited _ _ _ _ _ _ 0, sweepFrom_not_exited _ _ _ _ _ _ 0,
    ?_⟩
  · rw [h1.1, h2.1]
  · rw [checkedAddresses_sweepFrom, checkedAddresses_sweepFrom]
  · rw [contractCalls_sweepFrom, contractCalls_sweepFrom]
  · rw [h1.2, h2.2]
  · intro resp botToken chatID message
    cases resp with
    | networkError => rfl
    | status code =>
      by_cases hc : code = 200 <;>
        simp [hc, sendTelegramMessage, withoutSendLogs, Event.isSendLog]

/-- C8, on two addresses above the threshold: the run whose requests all fail with a
network error and the run whose requests all succeed request the same notifications. -/
theorem notifier_outcome_irrelevant_witness :
    notifications (checkBalances (fun _ _ => CallOutcome.balance 3000000000000000000)
        (fun _ _ => SendOutcome.networkError) "0xC" ["a1", "a2"] ⟨"u", "t", 5, "0xC", "f"⟩).events
      = notifications (checkBalances (fun _ _ => CallOutcome.balance 3000000000000000000)
        (fun _ _ => SendOutcome.status 200) "0xC" ["a1", "a2"] ⟨"u", "t", 5, "0xC", "f"⟩).events :=
  (notifier_outcome_irrelevant _ _ _ _ _ _).2.2.2.1

/-- C9, on a failing call: the call for the first address fails and the call for the
second address follows without any `time.Sleep` in between; the run of two addresses
sleeps once. -/
theorem delay_skipped_after_failed_call :
    (checkBalances
        (fun i _ => if i = 0 then CallOutcome.callError else CallOutcome.balance 1000000000000000)
        (fun _ _ => SendOutcome.status 200) "0xC" ["a1", "a2"] ⟨"u", "t", 5, "0xC", "f"⟩).events
      = [Event.logChecking 1 2 "a1", Event.callContract "0xC" "a1", Event.logCallFailed "a1",
          Event.logChecking 2 2 "a2", Event.callContract "0xC" "a2", Event.logRaw "a2",
          Event.logBalance "a2" "0.001", Event.sleep 1] ∧
    ((checkBalances
        (fun i _ => if i = 0 then CallOutcome.callError else CallOutcome.balance 1000000000000000)
        (fun _ _ => SendOutcome.status 200) "0xC" ["a1", "a2"]
        ⟨"u", "t", 5, "0xC", "f"⟩).events.filter Event.isSleep).length = 1 := by
  decide

set_option maxRecDepth 100000 in
theorem amountText_max_uint256 : amountText (2 ^ 256 - 1) = "1.157920892e+59" := by decide

set_option maxRecDepth 100000 in
theorem significantDigits_max_uint256 :
    significantDigits (amountText (2 ^ 256 - 1)) = "1157920892".toList := by decide

/-- C10: the amount in the alert is `balanceWETH.String()`, the computed value shown with
at most 10 significant decimal digits, not the exact decimal of `B / 10^18`: for every raw
balance the alert, when there is one, carries that text, and the text has at most 10
significant digits. The raw balance `2000000000000001`, which is above the threshold, is
announced with the amount `0.002`; the raw balances `3000000000000000000` and
`3000000000000000001` are announced with the same text; an eleventh digit is rounded away,
upwards (`1.23456789169` gives `1.234567892`, `0.99999999996` gives `1`) or downwards
(`1.23456789114` gives `1.234567891`), also in the exponent form. -/
theorem alert_amount_is_rounded_text (resp : SendOutcome) (contractAddress : String)
    (settings : Settings) (i n : Nat) (addr : String) (B : Nat) :
    (notifications
        (checkAddress (CallOutcome.balance B) resp contractAddress settings i n addr).events
      = if 2000000000000000 < B then [alertMessage addr (amountText B)] else []) ∧
    (significantDigits (amountText B)).length ≤ 10 ∧
    notifications (checkAddress (CallOutcome.balance 2000000000000001) resp contractAddress
        settings i n addr).events = ["Alamat: " ++ addr ++ ", Saldo WETH: 0.002 WETH"] ∧
    notifications (checkAddress (CallOutcome.balance 3000000000000000000) resp contractAddress
        settings i n addr).events = ["Alamat: " ++ addr ++ ", Saldo WETH: 3 WETH"] ∧
    notifications (checkAddress (CallOutcome.balance 3000000000000000001) resp contractAddress
        settings i n addr).events = ["Alamat: " ++ addr ++ ", Saldo WETH: 3 WETH"] ∧
    notifications (checkAddress (CallOutcome.balance 1234567891690000000) resp contractAddress
        settings i n addr).events = ["Alamat: " ++ addr ++ ", Saldo WETH: 1.234567892 WETH"] ∧
    amountText 1234567891140000000 = "1.234567891" ∧
    amountText 999999999960000000 = "1" ∧
    amountText 19999999999500000000 = "20" ∧
    amountText (2 ^ 256 - 1) = "1.157920892e+59" ∧
    significantDigits (amountText 1234567891690000000) = "1234567892".toList ∧
    significantDigits (amountText (2 ^ 256 - 1)) = "1157920892".toList ∧
    decimalBalance 2000000000000001 ≠ 2 / 1000 ∧
    decimalBalance 3000000000000000001 ≠ decimalBalance 3000000000000000000 := by
  have hgen : ∀ B : Nat, notifications
        (checkAddress (CallOutcome.balance B) resp contractAddress settings i n addr).events
      = if 2000000000000000 < B then [alertMessage addr (amountText B)] else [] := by
    intro B
    obtain ⟨d, hd⟩ := balanceWETH_isSome B
    have hiff := exceedsThreshold_iff B d hd
    rw [notifications_checkAddress B d hd]
    simp only [amountText, hd]
    by_cases h : 2000000000000000 < B
    · rw [if_pos (hiff.mpr h), if_pos h]
    · have h1 : ¬ (exceedsThreshold d = true) := fun hx => h (hiff.mp hx)
      rw [if_neg h1, if_neg h]
  have key : ∀ (B : Nat) (t : String), 2000000000000000 < B → amountText B = t →
      notifications (checkAddress (CallOutcome.balance B) resp contractAddress
        settings i n addr).events = ["Alamat: " ++ addr ++ ", Saldo WETH: " ++ t ++ " WETH"] := by
    intro B t hB ht
    rw [hgen B, if_pos hB, ht]
    rfl
  refine ⟨hgen B, significantDigits_amountText_le B, ?_, ?_, ?_, ?_, by decide, by decide,
    by decide, amountText_max_uint256, by decide, significantDigits_max_uint256, ?_, ?_⟩
  · have := key 2000000000000001 "0.002" (by decide) (by decide)
    simpa [String.append_assoc] using this
  · have := key 3000000000000000000 "3" (by decide) (by decide)
    simpa [String.append_assoc] using this
  · have := key 3000000000000000001 "3" (by decide) (by decide)
    simpa [String.append_assoc] using this
  · have := key 1234567891690000000 "1.234567892" (by decide) (by decide)
    simpa [String.append_assoc] using this
  · unfold decimalBalance
    norm_num
  · unfold decimalBalance
    norm_num

/-! ## The outer cycle -/

theorem checkBalances_not_exited (reader : Nat → String → CallOutcome)
    (notifier : Nat → String → SendOutcome) (contractAddress : String)
    (addresses : List String) (settings : Settings) :
    (checkBalances reader notifier contractAddress addresses settings).exited = false :=
  sweepFrom_not_exited _ _ _ _ _ _ 0

/-- C7, with the failure of the connection step being an error of `ethclient.Dial`: in a
cycle of `main` the setup steps run in the order read `settings.json`, parse it, read the
address file, connect; the first one that fails ends the process with a fatal log entry,
no later step is attempted, and the cycle has then made no contract call and requested no
notification; the loop of `main` stops in that cycle. `Dial` fails for an endpoint that
cannot be reached when the URL is a websocket or an IPC socket, and for a URL without
transport. -/
theorem setup_failure_is_fatal (worlds : Nat → World) (k cycles : Nat) :
    ((worlds k).settingsFile = none →
      mainCycle (worlds k)
        = ⟨[Event.readFile "settings.json",
            Event.fatal "Gagal membaca file settings.json"], true⟩) ∧
    (∀ file, (worlds k).settingsFile = some file → (worlds k).unmarshal file = none →
      mainCycle (worlds k)
        = ⟨[Event.readFile "settings.json", Event.unmarshal,
            Event.fatal "Gagal mem-parsing settings.json"], true⟩) ∧
    (∀ file settings err, (worlds k).settingsFile = some file →
      (worlds k).unmarshal file = some settings →
      readAddressesFromFile ((worlds k).files settings.AddressesFile) = Except.error err →
      mainCycle (worlds k)
        = ⟨[Event.readFile "settings.json", Event.unmarshal,
            Event.openFile settings.AddressesFile,
            Event.fatal "Gagal membaca file alamat"], true⟩) ∧
    (∀ file settings addresses, (worlds k).settingsFile = some file →
      (worlds k).unmarshal file = some settings →
      readAddressesFromFile ((worlds k).files settings.AddressesFile) = Except.ok addresses →
      Dial (worlds k) settings.BASERPCURL = false →
      mainCycle (worlds k)
        = ⟨[Event.readFile "settings.json", Event.unmarshal,
            Event.openFile settings.AddressesFile, Event.dial settings.BASERPCURL,
            Event.fatal "Gagal terhubung ke BASE RPC"], true⟩) ∧
    (∀ url, (worlds k).reachable url = false →
      ((worlds k).transport url = Transport.websocket ∨
        (worlds k).transport url = Transport.ipc) →
      Dial (worlds k) url = false) ∧
    (∀ url, (worlds k).transport url = Transport.unknown → Dial (worlds k) url = false) ∧
    ((mainCycle (worlds k)).exited = true →
      checkedAddresses (mainCycle (worlds k)).events = [] ∧
      contractCalls (mainCycle (worlds k)).events = [] ∧
      notifications (mainCycle (worlds k)).events = [] ∧
      main worlds (cycles + 1) k = mainCycle (worlds k)) := by
  have c1 : (worlds k).settingsFile = none →
      mainCycle (worlds k)
        = ⟨[Event.readFile "settings.json",
            Event.fatal "Gagal membaca file settings.json"], true⟩ := by
    intro h
    simp only [mainCycle, h]
  have c2 : ∀ file, (worlds k).settingsFile = some file → (worlds k).unmarshal file = none →
      mainCycle (worlds k)
        = ⟨[Event.readFile "settings.json", Event.unmarshal,
            Event.fatal "Gagal mem-parsing settings.json"], true⟩ := by
    intro file h1 h2
    simp only [mainCycle, h1, h2]
  have c3 : ∀ file settings err, (worlds k).settingsFile = some file →
      (worlds k).unmarshal file = some settings →
      readAddressesFromFile ((worlds k).files settings.AddressesFile) = Except.error err →
      mainCycle (worlds k)
        = ⟨[Event.readFile "settings.json", Event.unmarshal,
            Event.openFile settings.AddressesFile,
            Event.fatal "Gagal membaca file alamat"], true⟩ := by
    intro file settings err h1 h2 h3
    simp only [mainCycle, h1, h2, h3]
    rfl
  have c4 : ∀ file settings addresses, (worlds k).settingsFile = some file →
      (worlds k).unmarshal file = some settings →
      readAddressesFromFile ((worlds k).files settings.AddressesFile) = Except.ok addresses →
      Dial (worlds k) settings.BASERPCURL = false →
      mainCycle (worlds k)
        = ⟨[Event.readFile "settings.json", Event.unmarshal,
            Event.openFile settings.AddressesFile, Event.dial settings.BASERPCURL,
            Event.fatal "Gagal terhubung ke BASE RPC"], true⟩ := by
    intro file settings addresses h1 h2 h3 h4
    simp only [mainCycle, h1, h2, h3, h4]
    rfl
  refine ⟨c1, c2, c3, c4, ?_, ?_, ?_⟩
  · intro url hr ht
    rcases ht with ht | ht <;> simp only [Dial, ht, hr]
  · intro url ht
    simp only [Dial, ht]
  intro hex
  have hmain : main worlds (cycles + 1) k = mainCycle (worlds k) := by
    simp only [main, hex, if_true]
  refine ⟨?_, ?_, ?_, hmain⟩
  all_goals
    cases h1 : (worlds k).settingsFile with
    | none => rw [c1 h1]; rfl
    | some file =>
      cases h2 : (worlds k).unmarshal file with
      | none => rw [c2 file h1 h2]; rfl
      | some settings =>
        cases h3 : readAddressesFromFile ((worlds k).files settings.AddressesFile) with
        | error err => rw [c3 file settings err h1 h2 h3]; rfl
        | ok addresses =>
          cases h4 : Dial (worlds k) settings.BASERPCURL with
          | false => rw [c4 file settings addresses h1 h2 h3 h4]; rfl
          | true =>
            exfalso
            simp only [mainCycle, h1, h2, h3, h4, checkBalances_not_exited,
              Bool.false_eq_true, if_false, if_true] at hex

/-- C7, on the scenario of the specification: `settings.json` is missing. -/
theorem setup_failure_is_fatal_witness :
    (⟨none, fun _ => none, fun _ => none, fun _ => Transport.http, fun _ => true,
        fun _ _ => CallOutcome.balance 3000000000000000000,
        fun _ _ => SendOutcome.status 200⟩ : World).settingsFile = none ∧
    mainCycle ⟨none, fun _ => none, fun _ => none, fun _ => Transport.http, fun _ => true,
        fun _ _ => CallOutcome.balance 3000000000000000000,
        fun _ _ => SendOutcome.status 200⟩
      = ⟨[Event.readFile "settings.json",
          Event.fatal "Gagal membaca file settings.json"], true⟩ :=
  ⟨rfl, (setup_failure_is_fatal
    (fun _ => ⟨none, fun _ => none, fun _ => none, fun _ => Transport.http, fun _ => true,
        fun _ _ => CallOutcome.balance 3000000000000000000,
        fun _ _ => SendOutcome.status 200⟩) 0 0).1 rfl⟩

/-- C7 does not hold for every connection that cannot be established: with an HTTP URL
whose endpoint cannot be reached `Dial` returns no error, the sweep runs, the contract call
for the address is attempted and fails, and the cycle ends with the wait, not with the
process. -/
theorem unreachable_http_endpoint_is_not_fatal :
    (⟨some [], fun _ => some ⟨"http://10.0.0.1:8545", "t", 5, "0xC", "f"⟩,
        fun _ => some "a1".toList, fun _ => Transport.http, fun _ => false,
        fun _ _ => CallOutcome.callError,
        fun _ _ => SendOutcome.networkError⟩ : World).reachable "http://10.0.0.1:8545" = false ∧
    mainCycle ⟨some [], fun _ => some ⟨"http://10.0.0.1:8545", "t", 5, "0xC", "f"⟩,
        fun _ => some "a1".toList, fun _ => Transport.http, fun _ => false,
        fun _ _ => CallOutcome.callError,
        fun _ _ => SendOutcome.networkError⟩
      = ⟨[Event.readFile "settings.json", Event.unmarshal, Event.openFile "f",
          Event.dial "http://10.0.0.1:8545", Event.logChecking 1 1 "a1",
          Event.callContract "0xC" "a1", Event.logCallFailed "a1", Event.logWaiting,
          Event.sleep 43200], false⟩ := by
  decide

/-! ## The address file: the scanner loop and the lines of the content -/

theorem splitOnP_eq_takeWhile_cons {α : Type} (p q : α → Bool) (hq : ∀ x, q x = !p x)
    (l : List α) :
    l.splitOnP p = l.takeWhile q ::
      (if (l.dropWhile q).isEmpty then [] else ((l.dropWhile q).drop 1).splitOnP p) := by
  induction l with
  | nil => simp [List.splitOnP_nil]
  | cons x xs ih =>
    rw [List.splitOnP_cons]
    by_cases h : p x = true
    · simp [h, hq]
    · have h2 : p x = false := by simpa using h
      rw [if_neg h, ih]
      simp [h2, hq, List.modifyHead]

/-- The lines of a content, by its first line and the rest after the first newline. -/
theorem fileLines_eq (data : List Char) :
    fileLines data = data.takeWhile (fun c => c != '\n') ::
      (if (data.dropWhile (fun c => c != '\n')).isEmpty then []
       else fileLines ((data.dropWhile (fun c => c != '\n')).drop 1)) := by
  unfold fileLines List.splitOn
  exact splitOnP_eq_takeWhile_cons _ (fun c => c != '\n') (fun _ => rfl) data

theorem isSpace_cr : IsSpace '\r' = true := by decide

theorem TrimSpace_append_space (l : List Char) (c : Char) (hc : IsSpace c = true) :
    TrimSpace (l ++ [c]) = TrimSpace l := by
  unfold TrimSpace
  rw [List.dropWhile_append]
  by_cases h : (l.dropWhile IsSpace).isEmpty = true
  · have h2 : l.dropWhile IsSpace = [] := by simpa using h
    simp [h2, hc]
  · rw [if_neg h]
    simp [List.reverse_append, List.dropWhile_cons, hc]

theorem TrimSpace_dropCR (l : List Char) : TrimSpace (dropCR l) = TrimSpace l := by
  unfold dropCR
  by_cases h : l.getLast? = some '\r'
  · rw [if_pos h]
    obtain ⟨ys, hys⟩ := List.getLast?_eq_some_iff.mp h
    rw [hys, List.dropLast_concat, TrimSpace_append_space ys '\r' isSpace_cr]
  · rw [if_neg h]

theorem addressesOfLines_cons (l : List Char) (ls : List (List Char)) :
    addressesOfLines (l :: ls)
      = (if (TrimSpace l).isEmpty then [] else [String.mk (TrimSpace l)]) ++ addressesOfLines ls := by
  unfold addressesOfLines
  by_cases h : (TrimSpace l).isEmpty = true
  · simp [h]
  · simp [h]

theorem addressesOfLines_nil_line : addressesOfLines [[]] = [] := by decide

theorem any_tooLong_nil_line : ([[]] : List (List Char)).any tooLong = false := by decide

/-- The loop of `readAddressesFromFile` with enough fuel: `ErrTooLong` when a line is too
long for the scanner, else the addresses the specification describes, after `acc`. -/
theorem scanLoop_eq (fuel : Nat) :
    ∀ (data : List Char) (acc : List String), data.length < fuel →
      scanLoop fuel data acc
        = if (fileLines data).any tooLong then Except.error FileError.tooLong
          else Except.ok (acc ++ specAddresses data) := by
  induction fuel with
  | zero => intro data acc h; omega
  | succ fuel ih =>
    intro data acc hlen
    by_cases hnil : data = []
    · subst hnil
      simp only [scanLoop, Scan, if_true, specAddresses, fileLines, List.splitOn_nil]
      rw [any_tooLong_nil_line, addressesOfLines_nil_line]
      simp
    · have hsplit := fileLines_eq data
      have hdrop := (List.dropWhile_sublist (l := data) (fun c => c != '\n')).length_le
      have hpos : 0 < data.length := List.length_pos.mpr hnil
      simp only [scanLoop, Scan, hnil, if_false]
      by_cases hlong : MaxScanTokenSize ≤ byteLen (data.takeWhile (fun c => c != '\n'))
      · simp only [hlong, if_true]
        rw [hsplit, List.any_cons]
        simp [tooLong, hlong]
      · simp only [hlong, if_false, TrimSpace_dropCR]
        have hrest : ((data.dropWhile (fun c => c != '\n')).drop 1).length < fuel := by
          rw [List.length_drop]
          omega
        have hlines : (fileLines data).any tooLong
              = (fileLines ((data.dropWhile (fun c => c != '\n')).drop 1)).any tooLong ∧
            specAddresses data
              = (if (TrimSpace (data.takeWhile (fun c => c != '\n'))).isEmpty then []
                 else [String.mk (TrimSpace (data.takeWhile (fun c => c != '\n')))])
                ++ specAddresses ((data.dropWhile (fun c => c != '\n')).drop 1) := by
          unfold specAddresses
          rw [hsplit]
          cases hd : data.dropWhile (fun c => c != '\n') with
          | nil =>
            simp only [List.isEmpty_nil, if_true, List.drop_nil, fileLines, List.splitOn_nil]
            rw [addressesOfLines_cons, List.any_cons, any_tooLong_nil_line,
              addressesOfLines_nil_line]
            simp [tooLong, hlong, addressesOfLines]
          | cons c rest =>
            simp only [List.isEmpty_cons, Bool.false_eq_true, if_false, List.drop_succ_cons,
              List.drop_zero]
            rw [addressesOfLines_cons, List.any_cons]
            simp [tooLong, hlong]
        rw [hlines.1, hlines.2]
        by_cases hempty : (TrimSpace (data.takeWhile (fun c => c != '\n'))).isEmpty = true
        · have hl : ¬ (0 < (TrimSpace (data.takeWhile (fun c => c != '\n'))).length) := by
            have : TrimSpace (data.takeWhile (fun c => c != '\n')) = [] := by simpa using hempty
            rw [this]
            simp
          rw [if_neg hl, ih _ acc hrest]
          simp [hempty]
        · have hl : 0 < (TrimSpace (data.takeWhile (fun c => c != '\n'))).length := by
            apply List.length_pos.mpr
            intro hc
            rw [hc] at hempty
            simp at hempty
          rw [if_pos hl, ih _ _ hrest]
          simp [hempty]

/-! ## The address file: what `readAddressesFromFile` returns -/

theorem TrimSpace_head_not_space (l : List Char) (c : Char)
    (h : (TrimSpace l).head? = some c) : IsSpace c = false := by
  have hne : TrimSpace l ≠ [] := by
    intro hc
    rw [hc] at h
    simp at h
  have hpre : TrimSpace l <+: l.dropWhile IsSpace := by
    unfold TrimSpace
    rw [← List.reverse_suffix, List.reverse_reverse]
    exact List.dropWhile_suffix _
  have hne2 : l.dropWhile IsSpace ≠ [] := hpre.ne_nil hne
  have h1 := hpre.head hne
  have h2 := List.head_dropWhile_not IsSpace l hne2
  rw [List.head?_eq_head hne] at h
  have h3 : (TrimSpace l).head hne = c := by simpa using h
  rw [← h3, h1]
  exact h2

theorem TrimSpace_getLast_not_space (l : List Char) (c : Char)
    (h : (TrimSpace l).getLast? = some c) : IsSpace c = false := by
  unfold TrimSpace at h
  rw [List.getLast?_reverse] at h
  have h2 := List.head?_dropWhile_not IsSpace (l.dropWhile IsSpace).reverse
  rw [h] at h2
  exact h2

/-- A line trims to nothing exactly when it is blank. -/
theorem TrimSpace_isEmpty (l : List Char) : (TrimSpace l).isEmpty = isBlank l := by
  unfold isBlank
  by_cases hall : l.all IsSpace = true
  · have h1 : l.dropWhile IsSpace = [] := by
      rw [List.dropWhile_eq_nil_iff]
      intro x hx
      exact List.all_eq_true.mp hall x hx
    rw [hall]
    unfold TrimSpace
    rw [h1]
    rfl
  · have h1 : l.dropWhile IsSpace ≠ [] := by
      intro hc
      apply hall
      rw [List.all_eq_true]
      exact List.dropWhile_eq_nil_iff.mp hc
    have h2 := List.head_dropWhile_not IsSpace l h1
    have h3 : TrimSpace l ≠ [] := by
      unfold TrimSpace
      intro hc
      have hc2 : (l.dropWhile IsSpace).reverse.dropWhile IsSpace = [] := by
        simpa using hc
      rw [List.dropWhile_eq_nil_iff] at hc2
      have hmem : (l.dropWhile IsSpace).head h1 ∈ (l.dropWhile IsSpace).reverse :=
        List.mem_reverse.mpr (List.head_mem h1)
      have := hc2 _ hmem
      rw [h2] at this
      cases this
    have h4 : (TrimSpace l).isEmpty = false := by
      cases hT : TrimSpace l with
      | nil => exact absurd hT h3
      | cons c cs => rfl
    rw [h4]
    simpa using hall

theorem mem_addressesOfLines (ls : List (List Char)) (a : String) :
    a ∈ addressesOfLines ls ↔ ∃ l ∈ ls, (TrimSpace l).isEmpty = false ∧ a = String.mk (TrimSpace l) := by
  unfold addressesOfLines
  simp only [List.mem_map, List.mem_filter]
  constructor
  · rintro ⟨t, ⟨⟨l, hl, rfl⟩, ht⟩, rfl⟩
    exact ⟨l, hl, by simpa using ht, rfl⟩
  · rintro ⟨l, hl, ht, rfl⟩
    exact ⟨TrimSpace l, ⟨⟨l, hl, rfl⟩, by simpa using ht⟩, rfl⟩

/-- What `readAddressesFromFile` returns for a file that opens, by its lines. -/
theorem readAddressesFromFile_eq (content : List Char) :
    readAddressesFromFile (some content)
      = if (fileLines content).any tooLong then Except.error FileError.tooLong
        else Except.ok (specAddresses content) := by
  unfold readAddressesFromFile
  simp only []
  rw [scanLoop_eq _ content [] (Nat.lt_succ_self _)]
  simp

theorem byteLen_replicate (n : Nat) (c : Char) :
    byteLen (List.replicate n c) = n * RuneLen c := by
  unfold byteLen
  simp [List.map_replicate, List.sum_replicate]

theorem fileLines_replicate (n : Nat) (c : Char) (hc : c ≠ '\n') :
    fileLines (List.replicate n c) = [List.replicate n c] := by
  unfold fileLines List.splitOn
  apply List.splitOnP_eq_single
  intro x hx
  have := List.eq_of_mem_replicate hx
  subst this
  simpa using hc

/-- C5, with the line limit of the scanner: `readAddressesFromFile` on a file that opens
returns the scanner's `ErrTooLong` when some line holds `MaxScanTokenSize` (65536) bytes or
more, and otherwise returns without error the list obtained by splitting the content into lines, trimming
each and keeping the non-empty results, in the order of the lines and with repetitions;
every entry of that list is non-empty without leading or trailing white space, and every
non-blank line gives an entry, whatever its text. -/
theorem readAddressesFromFile_spec (content : List Char) :
    (readAddressesFromFile (some content)
      = if (fileLines content).any tooLong then Except.error FileError.tooLong
        else Except.ok (specAddresses content)) ∧
    specAddresses content
      = (((fileLines content).map TrimSpace).filter (fun l => !l.isEmpty)).map String.mk ∧
    (∀ a ∈ specAddresses content, a.data ≠ [] ∧
      (∀ c, a.data.head? = some c → IsSpace c = false) ∧
      (∀ c, a.data.getLast? = some c → IsSpace c = false)) ∧
    (∀ l ∈ fileLines content, isBlank l = false →
      String.mk (TrimSpace l) ∈ specAddresses content) := by
  refine ⟨readAddressesFromFile_eq content, rfl, ?_, ?_⟩
  · intro a ha
    obtain ⟨l, -, hne, rfl⟩ := (mem_addressesOfLines _ a).mp ha
    refine ⟨?_, ?_, ?_⟩
    · intro hc
      simp only at hc
      rw [hc] at hne
      simp at hne
    · intro c hc
      exact TrimSpace_head_not_space l c hc
    · intro c hc
      exact TrimSpace_getLast_not_space l c hc
  · intro l hl hb
    exact (mem_addressesOfLines _ _).mpr ⟨l, hl, by rw [TrimSpace_isEmpty]; exact hb, rfl⟩

/-- C5, on a small file with a repeated address, blank lines and a carriage return. -/
theorem readAddressesFromFile_spec_witness :
    readAddressesFromFile (some "0xabc\n  \n\t0xdef \r\n\n0xabc".toList)
      = Except.ok ["0xabc", "0xdef", "0xabc"] := by
  have h1 : (fileLines "0xabc\n  \n\t0xdef \r\n\n0xabc".toList).any tooLong = false := by
    decide
  have h2 : specAddresses "0xabc\n  \n\t0xdef \r\n\n0xabc".toList
      = ["0xabc", "0xdef", "0xabc"] := by decide
  rw [(readAddressesFromFile_spec "0xabc\n  \n\t0xdef \r\n\n0xabc".toList).1, h1, h2]
  rfl

/-- C5 does not hold for every readable content: a file that is one line of 65536 letters
is answered with an error, not with the list of its trimmed non-blank lines. -/
theorem long_line_is_an_error :
    readAddressesFromFile (some (List.replicate 65536 'a')) = Except.error FileError.tooLong ∧
    readAddressesFromFile (some (List.replicate 65536 'a'))
      ≠ Except.ok (specAddresses (List.replicate 65536 'a')) := by
  have h : readAddressesFromFile (some (List.replicate 65536 'a'))
      = Except.error FileError.tooLong := by
    rw [readAddressesFromFile_eq, fileLines_replicate 65536 'a' (by decide)]
    simp only [List.any_cons, List.any_nil, tooLong, byteLen_replicate]
    rw [if_pos (by decide)]
  refine ⟨h, ?_⟩
  rw [h]
  intro hc
  cases hc

theorem any_tooLong_filter (ls : List (List Char)) :
    ls.any tooLong = (ls.filter (fun l => !isShortBlank l)).any tooLong := by
  induction ls with
  | nil => rfl
  | cons l ls ih =>
    by_cases h : isShortBlank l = true
    · have hshort : byteLen l < MaxScanTokenSize := by
        unfold isShortBlank at h
        simp only [Bool.and_eq_true, decide_eq_true_eq] at h
        exact h.2
      have : tooLong l = false := by
        unfold tooLong
        simp only [decide_eq_false_iff_not]
        omega
      simp [List.filter_cons, h, this, ih]
    · simp [List.filter_cons, h, ih]

theorem addressesOfLines_filter (ls : List (List Char)) :
    addressesOfLines ls = addressesOfLines (ls.filter (fun l => !isShortBlank l)) := by
  induction ls with
  | nil => rfl
  | cons l ls ih =>
    by_cases h : isShortBlank l = true
    · have hblank : isBlank l = true := by
        unfold isShortBlank at h
        simp only [Bool.and_eq_true] at h
        exact h.1
      have h2 : (TrimSpace l).isEmpty = true := by rw [TrimSpace_isEmpty]; exact hblank
      rw [addressesOfLines_cons, ih]
      simp [List.filter_cons, h, h2]
    · have h4 : (l :: ls).filter (fun l => !isShortBlank l)
          = l :: ls.filter (fun l => !isShortBlank l) := by
        simp [List.filter_cons, h]
      rw [h4, addressesOfLines_cons, addressesOfLines_cons, ih]

theorem fileLines_append_newline (l rest : List Char) (hl : ∀ c ∈ l, c ≠ '\n') :
    fileLines (l ++ '\n' :: rest) = l :: fileLines rest := by
  unfold fileLines List.splitOn
  apply List.splitOnP_first
  · intro x hx
    simpa using hl x hx
  · simp

/-- C6, for blank lines that fit the scanner: blank (empty or white-space-only) lines of
fewer than `MaxScanTokenSize` (65536) bytes contribute nothing to what
`readAddressesFromFile` returns. Any two file contents that have the same lines apart from
such blank lines, in the same order, that is, contents that differ only by such blank lines
inserted or removed at any line positions, give the same result, whatever their other
lines are, and a content made only of such lines gives the empty list without error. -/
theorem blank_lines_contribute_nothing (content₁ content₂ : List Char)
    (hsame : (fileLines content₁).filter (fun l => !isShortBlank l)
      = (fileLines content₂).filter (fun l => !isShortBlank l)) :
    readAddressesFromFile (some content₁) = readAddressesFromFile (some content₂) ∧
    ((∀ l ∈ fileLines content₁, isShortBlank l = true) →
      readAddressesFromFile (some content₁) = Except.ok []) := by
  rw [readAddressesFromFile_eq, readAddressesFromFile_eq]
  unfold specAddresses
  rw [any_tooLong_filter (fileLines content₁), any_tooLong_filter (fileLines content₂),
    addressesOfLines_filter (fileLines content₁), addressesOfLines_filter (fileLines content₂),
    hsame]
  refine ⟨rfl, ?_⟩
  intro hall
  have hnone : (fileLines content₂).filter (fun l => !isShortBlank l) = [] := by
    rw [← hsame, List.filter_eq_nil_iff]
    intro l hl
    simp [hall l hl]
  rw [hnone]
  rfl

/-- C6, on two files: the blank second and fourth lines of `a`, (white space), `b`,
(empty) do not change the result of the file with the lines `a`, `b`; and an empty line
inserted after a first line of 65536 spaces, which is followed by the line `a`, does not
change the result either. -/
theorem blank_lines_contribute_nothing_witness :
    readAddressesFromFile (some "a\n  \t\nb\n\n".toList)
      = readAddressesFromFile (some "a\nb\n".toList) ∧
    readAddressesFromFile (some (List.replicate 65536 ' ' ++ '\n' :: "\na".toList))
      = readAddressesFromFile (some (List.replicate 65536 ' ' ++ '\n' :: "a".toList)) := by
  refine ⟨(blank_lines_contribute_nothing "a\n  \t\nb\n\n".toList "a\nb\n".toList
    (by decide)).1, (blank_lines_contribute_nothing _ _ ?_).1⟩
  have hsp : ∀ c ∈ List.replicate 65536 ' ', c ≠ '\n' := by
    intro c hc
    rw [List.eq_of_mem_replicate hc]
    decide
  have hlong : isShortBlank (List.replicate 65536 ' ') = false := by
    unfold isShortBlank
    rw [byteLen_replicate]
    simp only [Bool.and_eq_false_imp]
    intro _
    decide
  rw [fileLines_append_newline _ _ hsp, fileLines_append_newline _ _ hsp]
  have e1 : fileLines "\na".toList = [[], ['a']] := by decide
  have e2 : fileLines "a".toList = [['a']] := by decide
  rw [e1, e2]
  have f1 : List.filter (fun l => !isShortBlank l) [[], ['a']] = [['a']] := by decide
  have f2 : List.filter (fun l => !isShortBlank l) [['a']] = [['a']] := by decide
  have g : ∀ (line : List Char) (rest : List (List Char)), isShortBlank line = false →
      List.filter (fun l => !isShortBlank l) (line :: rest)
        = line :: List.filter (fun l => !isShortBlank l) rest := by
    intro line rest h
    simp [List.filter_cons, h]
  rw [g _ _ hlong, g _ _ hlong, f1, f2]

/-- C6 does not hold for blank lines of any length: a file made of one white-space-only
line of 65536 spaces is answered with an error, not with the empty list, although the
empty file is answered with the empty list. -/
theorem long_blank_line_is_an_error :
    isBlank (List.replicate 65536 ' ') = true ∧
    readAddressesFromFile (some (List.replicate 65536 ' ')) = Except.error FileError.tooLong ∧
    readAddressesFromFile (some []) = Except.ok [] := by
  refine ⟨?_, ?_, rfl⟩
  · unfold isBlank
    rw [List.all_eq_true]
    intro x hx
    rw [List.eq_of_mem_replicate hx]
    decide
  · rw [readAddressesFromFile_eq, fileLines_replicate 65536 ' ' (by decide)]
    simp only [List.any_cons, List.any_nil, tooLong, byteLen_replicate]
    rw [if_pos (by decide)]

end Main
